import Mathlib

set_option linter.unusedSectionVars false

/-!
# interval_map (src/main.cpp)

A shallow embedding of the class template `interval_map<K, V>` and a verification
of its contract.

## Model of `std::map<K, V>`

The backing `std::map` is modelled by the list of its records in ascending key
order.  Keys of a `std::map` are unique and its iterators stay attached to their
node across insertions and across erasures of other nodes, so an iterator is
modelled by the key of the node it points to, and `end()` by `none`.

Operations that have undefined behaviour in C++ (dereferencing `end()` or an
erased node, stepping before `begin()` or past `end()`) return `none`.
-/

namespace IntervalMap

variable {K V : Type}

/-- An iterator of the backing map: the key of its node, `none` for `end()`. -/
abbrev Iter (K : Type) := Option K

/-- The records of the backing map, in ascending key order. -/
abbrev Records (K V : Type) := List (K × V)

section StdMap

variable [LinearOrder K]

/-- Whether a node with key `k` exists. -/
def hasKey (m : Records K V) (k : K) : Bool := m.any (fun p => decide (p.1 = k))

/-- The records whose key is below `k`. -/
def below (m : Records K V) (k : K) : Records K V := m.filter (fun p => decide (p.1 < k))

/-- The records whose key is above `k`. -/
def above (m : Records K V) (k : K) : Records K V := m.filter (fun p => decide (k < p.1))

/-- Model of `map_.begin()`. -/
def map_begin (m : Records K V) : Iter K := m.head?.map Prod.fst

/-- Model of `map_.end()`. -/
def map_end : Iter K := none

/-- Model of `map_.find(k)`. -/
def map_find (m : Records K V) (k : K) : Iter K := if hasKey m k then some k else none

/-- Model of `map_.lower_bound(k)`: the first node whose key is not below `k`. -/
def map_lower_bound (m : Records K V) (k : K) : Iter K :=
  (m.filter (fun p => decide (k ≤ p.1))).head?.map Prod.fst

/-- Model of `map_.upper_bound(k)`: the first node whose key is above `k`. -/
def map_upper_bound (m : Records K V) (k : K) : Iter K := (above m k).head?.map Prod.fst

/-- Model of `it->second` as an rvalue; undefined at `end()` and at an erased node. -/
def deref (m : Records K V) : Iter K → Option V
  | none => none
  | some k => (m.find? (fun p => decide (p.1 = k))).map Prod.snd

/-- Model of `it->second = v`; undefined at `end()` and at an erased node. -/
def assign (m : Records K V) (it : Iter K) (v : V) : Option (Records K V) :=
  match it with
  | none => none
  | some k => if hasKey m k then some (m.map (fun p => if p.1 = k then (p.1, v) else p)) else none

/-- Model of `std::prev(it)` (and of `--it`); undefined at `begin()` and at an erased node. -/
def std_prev (m : Records K V) : Iter K → Option (Iter K)
  | none => m.getLast?.map (fun p => some p.1)
  | some k => if hasKey m k then (below m k).getLast?.map (fun p => some p.1) else none

/-- Model of `std::next(it)`; undefined at `end()` and at an erased node. -/
def std_next (m : Records K V) : Iter K → Option (Iter K)
  | none => none
  | some k => if hasKey m k then some ((above m k).head?.map Prod.fst) else none

/-- Model of `map_.insert(hint, std::make_pair(k, v))`: the hint does not affect the
result; an existing node with key `k` is left as it is.  Returns the new contents and
the iterator to the node with key `k`. -/
def map_insert (m : Records K V) (k : K) (v : V) : Records K V × Iter K :=
  if hasKey m k then (m, some k) else (below m k ++ (k, v) :: above m k, some k)

/-- Model of `map_.insert_or_assign(k, v)`, with `.first` of its result. -/
def map_insert_or_assign (m : Records K V) (k : K) (v : V) : Records K V × Iter K :=
  (below m k ++ (k, v) :: above m k, some k)

/-- Model of `map_.erase(it)`; undefined at `end()` and at an erased node. -/
def map_erase (m : Records K V) : Iter K → Option (Records K V)
  | none => none
  | some k => if hasKey m k then some (m.filter (fun p => !decide (p.1 = k))) else none

/-- Model of `map_.erase(first, last)`: removes the nodes of `[first, last)`; undefined
unless `first` and `last` are valid and `last` is reachable from `first`. -/
def map_erase_range (m : Records K V) : Iter K → Iter K → Option (Records K V)
  | none, none => some m
  | none, some _ => none
  | some f, none => if hasKey m f then some (below m f) else none
  | some f, some l =>
    if hasKey m f && hasKey m l && decide (f ≤ l) then
      some (m.filter (fun p => decide (p.1 < f) || decide (l ≤ p.1)))
    else none

end StdMap

end IntervalMap

/-- The class `interval_map<K, V>`: its two data members. -/
structure interval_map (K V : Type) where
  begin_value_ : V
  map_ : List (K × V)
deriving DecidableEq, Repr

namespace interval_map

open IntervalMap

variable {K V : Type} [LinearOrder K] [DecidableEq V]

/-- The constructor `interval_map(V const& val)`. -/
def new (val : V) : interval_map K V := ⟨val, []⟩

/-- Lines 23-41 of `insert`: make sure a node exists at `key_end`.  Returns the new
contents and `it_end`. -/
def insert_end_record (begin_value_ : V) (map_ : Records K V) (key_end : K) :
    Option (Records K V × Iter K) :=
  let it_end := map_find map_ key_end
  let lower_bound := map_lower_bound map_ key_end
  if it_end ≠ map_end then
    (deref map_ lower_bound).bind fun v =>
    (assign map_ it_end v).bind fun map_ =>
    some (map_, it_end)
  else if lower_bound = map_begin map_ then
    some (map_insert map_ key_end begin_value_)
  else
    (std_prev map_ lower_bound).bind fun lower_bound =>
    (deref map_ lower_bound).bind fun v =>
    some (map_insert map_ key_end v)

/-- Lines 53-61 of `insert`: the loop `while (right_it != left_it)`.  `fuel` bounds the
number of iterations of the body; the exit test itself needs no fuel. -/
def canon_loop : Nat → Records K V → Iter K → Iter K → Option (Records K V)
  | 0, map_, right_it, left_it => if right_it = left_it then some map_ else none
  | fuel + 1, map_, right_it, left_it =>
    if right_it = left_it then some map_
    else
      (std_prev map_ right_it).bind fun next_it =>
      (deref map_ right_it).bind fun rv =>
      (deref map_ next_it).bind fun nv =>
      (if rv = nv then map_erase map_ right_it else some map_).bind fun map_ =>
      canon_loop fuel map_ next_it left_it

/-- The member function `insert` (lines 17-69).  `none` stands for undefined behaviour.
The loop gets as much fuel as the map has nodes: every iteration moves `right_it` to
an earlier node. -/
def insert (self : interval_map K V) (key_begin key_end : K) (val : V) :
    Option (interval_map K V) :=
  if key_begin ≥ key_end then some self
  else
    (insert_end_record self.begin_value_ self.map_ key_end).bind fun r =>
    let it_end := r.2
    let r := map_insert_or_assign r.1 key_begin val
    let it_begin := r.2
    (std_next r.1 it_begin).bind fun first =>
    (map_erase_range r.1 first it_end).bind fun map_ =>
    let right_it := it_end
    (if it_begin ≠ map_begin map_ then std_prev map_ it_begin else some it_begin).bind
      fun left_it =>
    (canon_loop map_.length map_ right_it left_it).bind fun map_ =>
    (if left_it = map_begin map_ then
        (deref map_ left_it).map (fun v => decide (v = self.begin_value_))
      else some false).bind fun c =>
    if c then (map_erase map_ left_it).map fun map_ => ⟨self.begin_value_, map_⟩
    else some ⟨self.begin_value_, map_⟩

/-- The member function `insert` with the loop of lines 53-61 cut off after `fuel`
iterations: the same text as `insert`, except for the fuel given to `canon_loop`.  It
returns `none` when the loop needs more than `fuel` iterations. -/
def insert_bounded (fuel : Nat) (self : interval_map K V) (key_begin key_end : K) (val : V) :
    Option (interval_map K V) :=
  if key_begin ≥ key_end then some self
  else
    (insert_end_record self.begin_value_ self.map_ key_end).bind fun r =>
    let it_end := r.2
    let r := map_insert_or_assign r.1 key_begin val
    let it_begin := r.2
    (std_next r.1 it_begin).bind fun first =>
    (map_erase_range r.1 first it_end).bind fun map_ =>
    let right_it := it_end
    (if it_begin ≠ map_begin map_ then std_prev map_ it_begin else some it_begin).bind
      fun left_it =>
    (canon_loop fuel map_ right_it left_it).bind fun map_ =>
    (if left_it = map_begin map_ then
        (deref map_ left_it).map (fun v => decide (v = self.begin_value_))
      else some false).bind fun c =>
    if c then (map_erase map_ left_it).map fun map_ => ⟨self.begin_value_, map_⟩
    else some ⟨self.begin_value_, map_⟩

/-- The member function `at` (lines 76-83), also `operator[]`. -/
def at_ (self : interval_map K V) (key : K) : Option V :=
  let it := map_upper_bound self.map_ key
  if it = map_begin self.map_ then some self.begin_value_
  else (std_prev self.map_ it).bind fun it => deref self.map_ it

/-- What `print` writes: the records in ascending key order. -/
def traverse (self : interval_map K V) : List (K × V) := self.map_

/-- Runs a list of `insert` calls, left to right. -/
def inserts (self : interval_map K V) : List (K × K × V) → Option (interval_map K V)
  | [] => some self
  | (b, e, v) :: rest => (insert self b e v).bind fun s => inserts s rest

end interval_map


/-! ## Specification vocabulary -/

namespace IntervalMap

variable {K V : Type} [LinearOrder K]

/-- Invariant I1: the keys are strictly increasing. -/
def I1 (m : Records K V) : Prop := m.Pairwise (fun p q => p.1 < q.1)

/-- Invariant I2: no two consecutive records hold equal values. -/
def I2 : Records K V → Prop
  | p :: q :: rest => p.2 ≠ q.2 ∧ I2 (q :: rest)
  | _ => True

/-- Invariant I3: the first record, if any, does not hold the default value. -/
def I3 (d : V) (m : Records K V) : Prop := ∀ p ∈ m.head?, p.2 ≠ d

instance decI1 (m : Records K V) : Decidable (I1 m) :=
  inferInstanceAs (Decidable (m.Pairwise (fun (p q : K × V) => p.1 < q.1)))

instance decI2 [DecidableEq V] : (m : Records K V) → Decidable (I2 m)
  | [] => isTrue trivial
  | [_] => isTrue trivial
  | p :: q :: rest =>
    have : Decidable (I2 (q :: rest)) := decI2 (q :: rest)
    inferInstanceAs (Decidable (p.2 ≠ q.2 ∧ I2 (q :: rest)))

instance decI3 [DecidableEq V] (d : V) (m : Records K V) : Decidable (I3 d m) :=
  inferInstanceAs (Decidable (∀ p ∈ m.head?, p.2 ≠ d))

/-- The value of the last record of `m`, or `d` when `m` is empty. -/
def lastVal (d : V) : Records K V → V
  | [] => d
  | p :: rest => lastVal p.2 rest

/-- The records whose key is at most `k`. -/
def upto (m : Records K V) (k : K) : Records K V := m.filter (fun p => decide (p.1 ≤ k))

/-- The records left of `key_begin` after `insert`: the final test of `insert` removes
a single left record that holds the default value. -/
def trimLeft (d : V) [DecidableEq V] : Records K V → Records K V
  | [l] => if l.2 = d then [] else [l]
  | L => L

/-- The contents after `insert(b, e, v)` in closed form: `L` are the records below `b`,
`R` the records above `e`, and `c` the value carried to the record at `e`. -/
def insertResult [DecidableEq V] (d : V) (L R : Records K V) (b e : K) (v c : V) :
    Records K V :=
  trimLeft d L ++ ((if v = lastVal d L then [] else [(b, v)]) ++
    ((if c = v then [] else [(e, c)]) ++ R))

/-- I2 and I3 together: walking from the default value through the records, the value
changes at every record. -/
def Canon (d : V) : Records K V → Prop
  | [] => True
  | p :: rest => p.2 ≠ d ∧ Canon p.2 rest

end IntervalMap

namespace interval_map

open IntervalMap

variable {K V : Type} [LinearOrder K] [DecidableEq V]

/-- The map states reachable from a new map by `insert` calls. -/
def Reachable (s : interval_map K V) : Prop :=
  ∃ (d : V) (calls : List (K × K × V)), inserts (new d) calls = some s

/-- The representation invariant: I1, I2 and I3. -/
def Inv (s : interval_map K V) : Prop := I1 s.map_ ∧ Canon s.begin_value_ s.map_

end interval_map

/-! ## Lemmas on the list model -/

namespace IntervalMap

variable {K V : Type} [LinearOrder K]

theorem lastVal_append (d : V) (A B : Records K V) :
    lastVal d (A ++ B) = lastVal (lastVal d A) B := by
  induction A generalizing d with
  | nil => rfl
  | cons p A ih => simp [lastVal, ih]

theorem canon_append (d : V) (A B : Records K V) :
    Canon d (A ++ B) ↔ Canon d A ∧ Canon (lastVal d A) B := by
  induction A generalizing d with
  | nil => simp [Canon, lastVal]
  | cons p A ih => simp [Canon, lastVal, ih, and_assoc]

theorem canon_iff (d : V) (m : Records K V) : Canon d m ↔ I2 m ∧ I3 d m := by
  induction m generalizing d with
  | nil => simp [Canon, I2, I3]
  | cons p m ih =>
    cases m with
    | nil => simp [Canon, I2, I3]
    | cons q m =>
      have := ih p.2
      simp only [Canon] at this ⊢
      rw [this]
      simp only [I2, I3, List.head?_cons, Option.mem_def, Option.some.injEq, forall_eq']
      constructor
      · rintro ⟨h1, h2, h3⟩
        exact ⟨⟨fun h => h3 h.symm, h2⟩, h1⟩
      · rintro ⟨⟨h1, h2⟩, h3⟩
        exact ⟨h3, h2, fun h => h1 h.symm⟩

theorem hasKey_iff (m : Records K V) (k : K) : hasKey m k = true ↔ ∃ p ∈ m, p.1 = k := by
  simp [hasKey]

theorem hasKey_false_iff (m : Records K V) (k : K) : hasKey m k = false ↔ ∀ p ∈ m, p.1 ≠ k := by
  simp [hasKey]

theorem below_of_lt (A : Records K V) (k : K) (h : ∀ p ∈ A, p.1 < k) : below A k = A := by
  simpa [below, List.filter_eq_self] using h

theorem below_of_not_lt (A : Records K V) (k : K) (h : ∀ p ∈ A, ¬ p.1 < k) : below A k = [] := by
  simpa [below, List.filter_eq_nil_iff] using h

theorem above_of_lt (A : Records K V) (k : K) (h : ∀ p ∈ A, k < p.1) : above A k = A := by
  simpa [above, List.filter_eq_self] using h

theorem above_of_not_lt (A : Records K V) (k : K) (h : ∀ p ∈ A, ¬ k < p.1) : above A k = [] := by
  simpa [above, List.filter_eq_nil_iff] using h

theorem upto_of_le (A : Records K V) (k : K) (h : ∀ p ∈ A, p.1 ≤ k) : upto A k = A := by
  simpa [upto, List.filter_eq_self] using h

theorem upto_of_lt (A : Records K V) (k : K) (h : ∀ p ∈ A, k < p.1) : upto A k = [] := by
  simpa [upto, List.filter_eq_nil_iff] using h

theorem below_append (A B : Records K V) (k : K) : below (A ++ B) k = below A k ++ below B k := by
  simp [below]

theorem above_append (A B : Records K V) (k : K) : above (A ++ B) k = above A k ++ above B k := by
  simp [above]

theorem upto_append (A B : Records K V) (k : K) : upto (A ++ B) k = upto A k ++ upto B k := by
  simp [upto]

/-! ### A list split at a key: `A ++ (k, x) :: B` with `A` below `k` and `B` above -/

theorem hasKey_split (A B : Records K V) (k : K) (x : V) :
    hasKey (A ++ (k, x) :: B) k = true := by
  simp [hasKey]

theorem hasKey_split_false (A B : Records K V) (k : K)
    (hA : ∀ p ∈ A, p.1 < k) (hB : ∀ p ∈ B, k < p.1) : hasKey (A ++ B) k = false := by
  rw [hasKey_false_iff]
  intro p hp
  rcases List.mem_append.1 hp with h | h
  · exact ne_of_lt (hA p h)
  · exact ne_of_gt (hB p h)

theorem below_split (A B : Records K V) (k : K) (x : V)
    (hA : ∀ p ∈ A, p.1 < k) (hB : ∀ p ∈ B, k < p.1) : below (A ++ (k, x) :: B) k = A := by
  have h1 : below A k = A := below_of_lt A k hA
  have h2 : below B k = [] := below_of_not_lt B k (fun p hp => not_lt_of_gt (hB p hp))
  have h3 : below [(k, x)] k = [] := by simp [below]
  have : A ++ (k, x) :: B = A ++ ([(k, x)] ++ B) := by simp
  rw [this, below_append, below_append, h1, h2, h3]
  simp

theorem above_split (A B : Records K V) (k : K) (x : V)
    (hA : ∀ p ∈ A, p.1 < k) (hB : ∀ p ∈ B, k < p.1) : above (A ++ (k, x) :: B) k = B := by
  have h1 : above A k = [] := above_of_not_lt A k (fun p hp => not_lt_of_gt (hA p hp))
  have h2 : above B k = B := above_of_lt B k hB
  have h3 : above [(k, x)] k = [] := by simp [above]
  have : A ++ (k, x) :: B = A ++ ([(k, x)] ++ B) := by simp
  rw [this, above_append, above_append, h1, h2, h3]
  simp

theorem below_split_none (A B : Records K V) (k : K)
    (hA : ∀ p ∈ A, p.1 < k) (hB : ∀ p ∈ B, k < p.1) : below (A ++ B) k = A := by
  rw [below_append, below_of_lt A k hA,
    below_of_not_lt B k (fun p hp => not_lt_of_gt (hB p hp))]
  simp

theorem above_split_none (A B : Records K V) (k : K)
    (hA : ∀ p ∈ A, p.1 < k) (hB : ∀ p ∈ B, k < p.1) : above (A ++ B) k = B := by
  rw [above_append, above_of_lt B k hB,
    above_of_not_lt A k (fun p hp => not_lt_of_gt (hA p hp))]
  simp

theorem find_split (A B : Records K V) (k : K) (x : V) (hA : ∀ p ∈ A, p.1 < k) :
    (A ++ (k, x) :: B).find? (fun p => decide (p.1 = k)) = some (k, x) := by
  have h : A.find? (fun p => decide (p.1 = k)) = none := by
    rw [List.find?_eq_none]
    intro p hp
    simpa using ne_of_lt (hA p hp)
  simp [List.find?_append, h]

theorem deref_split (A B : Records K V) (k : K) (x : V) (hA : ∀ p ∈ A, p.1 < k) :
    deref (A ++ (k, x) :: B) (some k) = some x := by
  simp [deref, find_split A B k x hA]

theorem erase_split (A B : Records K V) (k : K) (x : V)
    (hA : ∀ p ∈ A, p.1 < k) (hB : ∀ p ∈ B, k < p.1) :
    map_erase (A ++ (k, x) :: B) (some k) = some (A ++ B) := by
  have h1 : A.filter (fun p => !decide (p.1 = k)) = A := by
    rw [List.filter_eq_self]
    intro p hp
    simpa using ne_of_lt (hA p hp)
  have h2 : B.filter (fun p => !decide (p.1 = k)) = B := by
    rw [List.filter_eq_self]
    intro p hp
    simpa using ne_of_gt (hB p hp)
  simp [map_erase, hasKey_split, List.filter_append, h1, h2, List.filter_cons]

theorem prev_split (A B : Records K V) (k : K) (x : V)
    (hA : ∀ p ∈ A, p.1 < k) (hB : ∀ p ∈ B, k < p.1) :
    std_prev (A ++ (k, x) :: B) (some k) = A.getLast?.map (fun p => some p.1) := by
  simp [std_prev, hasKey_split, below_split A B k x hA hB]

theorem next_split (A B : Records K V) (k : K) (x : V)
    (hA : ∀ p ∈ A, p.1 < k) (hB : ∀ p ∈ B, k < p.1) :
    std_next (A ++ (k, x) :: B) (some k) = some (B.head?.map Prod.fst) := by
  simp [std_next, hasKey_split, above_split A B k x hA hB]

/-! ### Sorted lists -/

theorem I1_append {A B : Records K V} :
    I1 (A ++ B) ↔ I1 A ∧ I1 B ∧ ∀ p ∈ A, ∀ q ∈ B, p.1 < q.1 := by
  simp [I1, List.pairwise_append]

theorem I1_cons {p : K × V} {A : Records K V} :
    I1 (p :: A) ↔ (∀ q ∈ A, p.1 < q.1) ∧ I1 A := by
  simp [I1]

theorem I1_below {m : Records K V} (h : I1 m) (k : K) : I1 (below m k) :=
  List.Pairwise.filter _ h

theorem I1_above {m : Records K V} (h : I1 m) (k : K) : I1 (above m k) :=
  List.Pairwise.filter _ h

theorem mem_below {m : Records K V} {k : K} {p : K × V} : p ∈ below m k ↔ p ∈ m ∧ p.1 < k := by
  simp [below]

theorem mem_above {m : Records K V} {k : K} {p : K × V} : p ∈ above m k ↔ p ∈ m ∧ k < p.1 := by
  simp [above]

/-- A sorted list is its part below `k` followed by its part not below `k`. -/
theorem sorted_split_below {m : Records K V} (h : I1 m) (k : K) :
    m = below m k ++ m.filter (fun p => decide (k ≤ p.1)) := by
  induction m with
  | nil => simp [below]
  | cons p m ih =>
    rw [I1_cons] at h
    by_cases hp : p.1 < k
    · have := ih h.2
      simp only [below] at this ⊢
      simp [List.filter_cons, hp, not_le_of_lt hp]
      exact this
    · have h1 : below m k = [] :=
        below_of_not_lt m k (fun q hq hqk => hp (lt_trans (h.1 q hq) hqk))
      have h2 : m.filter (fun p => decide (k ≤ p.1)) = m := by
        rw [List.filter_eq_self]
        intro q hq
        have : k ≤ q.1 := le_trans (not_lt.1 hp) (le_of_lt (h.1 q hq))
        simpa using this
      simp only [below] at h1 ⊢
      simp [List.filter_cons, hp, not_lt.1 hp, h1, h2]

/-- A sorted list is its part up to `k` followed by its part above `k`. -/
theorem sorted_split_upto {m : Records K V} (h : I1 m) (k : K) :
    m = upto m k ++ above m k := by
  induction m with
  | nil => simp [upto, above]
  | cons p m ih =>
    rw [I1_cons] at h
    by_cases hp : p.1 ≤ k
    · have := ih h.2
      simp only [upto, above] at this ⊢
      simp [List.filter_cons, hp, not_lt_of_le hp]
      exact this
    · have hp2 : k < p.1 := lt_of_not_le hp
      have h1 : upto m k = [] :=
        upto_of_lt m k (fun q hq => lt_trans hp2 (h.1 q hq))
      have h2 : above m k = m := above_of_lt m k (fun q hq => lt_trans hp2 (h.1 q hq))
      simp only [upto, above] at h1 h2 ⊢
      simp [List.filter_cons, hp, hp2, h1, h2]

theorem sorted_split_mem {m : Records K V} (h : I1 m) {p : K × V} (hp : p ∈ m) :
    m = below m p.1 ++ p :: above m p.1 := by
  induction m with
  | nil => simp at hp
  | cons q m ih =>
    rw [I1_cons] at h
    rcases List.mem_cons.1 hp with rfl | hm
    · have h1 : below m p.1 = [] :=
        below_of_not_lt m p.1 (fun r hr => not_lt_of_gt (h.1 r hr))
      have h2 : above m p.1 = m := above_of_lt m p.1 h.1
      simp only [below, above] at h1 h2 ⊢
      simp [List.filter_cons, h1, h2]
    · have hq : q.1 < p.1 := h.1 p hm
      have := ih h.2 hm
      simp only [below, above] at this ⊢
      simp [List.filter_cons, hq, not_lt_of_gt hq]
      exact this

theorem sorted_split_absent {m : Records K V} (h : I1 m) {k : K} (hk : hasKey m k = false) :
    m = below m k ++ above m k := by
  have h1 := sorted_split_below h k
  have h2 : m.filter (fun p => decide (k ≤ p.1)) = above m k := by
    unfold above
    apply List.filter_congr
    intro p hp
    have : p.1 ≠ k := (hasKey_false_iff m k).1 hk p hp
    simp [lt_iff_le_and_ne, this.symm]
  rw [h2] at h1
  exact h1

theorem head_key_ne_of_le {A B : Records K V} {e : K} (hne : A ≠ [])
    (hA : ∀ p ∈ A, p.1 ≤ e) (hB : ∀ p ∈ B, e < p.1) :
    B.head?.map Prod.fst ≠ (A ++ B).head?.map Prod.fst := by
  cases A with
  | nil => exact absurd rfl hne
  | cons a A =>
    cases B with
    | nil => simp
    | cons b B =>
      simp
      have h1 := hA a (by simp)
      have h2 := hB b (by simp)
      exact ne_of_gt (lt_of_le_of_lt h1 h2)

theorem head_key_ne_of_lt {A B : Records K V} {e : K} (hne : A ≠ [])
    (hA : ∀ p ∈ A, p.1 < e) (hB : ∀ p ∈ B, e < p.1) :
    B.head?.map Prod.fst ≠ (A ++ B).head?.map Prod.fst :=
  head_key_ne_of_le hne (fun p hp => le_of_lt (hA p hp)) hB

end IntervalMap

/-! ## The steps of `insert` on split lists -/

namespace interval_map

open IntervalMap

variable {K V : Type} [LinearOrder K] [DecidableEq V]

theorem insert_end_record_present (d : V) (A B : Records K V) (e : K) (c : V)
    (hA : ∀ p ∈ A, p.1 < e) (hB : ∀ p ∈ B, e < p.1) :
    insert_end_record d (A ++ (e, c) :: B) e = some (A ++ (e, c) :: B, some e) := by
  have hlb : map_lower_bound (A ++ (e, c) :: B) e = some e := by
    have : A.filter (fun p => decide (e ≤ p.1)) = [] := by
      rw [List.filter_eq_nil_iff]
      intro p hp
      simpa using hA p hp
    simp [map_lower_bound, List.filter_append, this, List.filter_cons]
  have hA2 : A.map (fun p => if p.1 = e then (p.1, c) else p) = A := by
    conv_rhs => rw [← List.map_id A]
    apply List.map_congr_left
    intro p hp
    simp [ne_of_lt (hA p hp)]
  have hB2 : B.map (fun p => if p.1 = e then (p.1, c) else p) = B := by
    conv_rhs => rw [← List.map_id B]
    apply List.map_congr_left
    intro p hp
    simp [ne_of_gt (hB p hp)]
  simp [insert_end_record, map_find, hasKey_split, map_end, hlb, deref_split A B e c hA,
    assign, hA2, hB2]

theorem insert_end_record_absent (d : V) (A B : Records K V) (e : K)
    (hA : ∀ p ∈ A, p.1 < e) (hB : ∀ p ∈ B, e < p.1) (sA : I1 A) (sB : I1 B) :
    insert_end_record d (A ++ B) e = some (A ++ (e, lastVal d A) :: B, some e) := by
  have hk : hasKey (A ++ B) e = false := hasKey_split_false A B e hA hB
  have hlb : map_lower_bound (A ++ B) e = B.head?.map Prod.fst := by
    have h1 : A.filter (fun p => decide (e ≤ p.1)) = [] := by
      rw [List.filter_eq_nil_iff]
      intro p hp
      simpa using hA p hp
    have h2 : B.filter (fun p => decide (e ≤ p.1)) = B := by
      rw [List.filter_eq_self]
      intro p hp
      simpa using le_of_lt (hB p hp)
    simp [map_lower_bound, List.filter_append, h1, h2]
  have hins : ∀ v, map_insert (A ++ B) e v = (A ++ (e, v) :: B, some e) := by
    intro v
    simp [map_insert, hk, below_split_none A B e hA hB, above_split_none A B e hA hB]
  rcases List.eq_nil_or_concat A with rfl | ⟨A0, a, rfl⟩
  · simp only [List.nil_append] at hk hlb hins ⊢
    simp [insert_end_record, map_find, hk, map_end, hlb, map_begin, hins, lastVal]
  · rw [List.concat_eq_append] at *
    have hne : B.head?.map Prod.fst ≠ map_begin (A0 ++ [a] ++ B) :=
      head_key_ne_of_lt (by simp) hA hB
    have hA0 : ∀ p ∈ A0, p.1 < a.1 := fun p hp => (I1_append.1 sA).2.2 p hp a (by simp)
    have hprev : std_prev (A0 ++ [a] ++ B) (B.head?.map Prod.fst) = some (some a.1) := by
      cases B with
      | nil => simp [std_prev]
      | cons b B =>
        have hb : ∀ p ∈ A0 ++ [a], p.1 < b.1 := fun p hp => lt_trans (hA p hp) (hB b (by simp))
        have := prev_split (A0 ++ [a]) B b.1 b.2 hb (I1_cons.1 sB).1
        simpa using this
    have hd : deref (A0 ++ [a] ++ B) (some a.1) = some a.2 := by
      have := deref_split A0 B a.1 a.2 hA0
      simpa using this
    simp only [List.append_assoc, List.singleton_append] at hk hlb hins hne hprev hd ⊢
    simp [insert_end_record, map_find, hk, map_end, hlb, hne, hprev, hd, hins, lastVal_append,
      lastVal]

/-- One iteration of the loop with `right_it` at the record `(k, x)` whose predecessor
is `a`. -/
theorem canon_loop_step (n : Nat) (A0 B : Records K V) (a : K × V) (k : K) (x : V)
    (left_it : Iter K) (hleft : some k ≠ left_it)
    (hA0 : ∀ p ∈ A0, p.1 < a.1) (hak : a.1 < k) (hB : ∀ p ∈ B, k < p.1) :
    canon_loop (n + 1) (A0 ++ a :: (k, x) :: B) (some k) left_it
      = canon_loop n (A0 ++ a :: ((if x = a.2 then [] else [(k, x)]) ++ B)) (some a.1)
          left_it := by
  have hA : ∀ p ∈ A0 ++ [a], p.1 < k := by
    intro p hp
    rcases List.mem_append.1 hp with h | h
    · exact lt_trans (hA0 p h) hak
    · simp at h
      subst h
      exact hak
  have e1 : A0 ++ a :: (k, x) :: B = (A0 ++ [a]) ++ (k, x) :: B := by simp
  have hprev : std_prev (A0 ++ a :: (k, x) :: B) (some k) = some (some a.1) := by
    rw [e1, prev_split _ _ _ _ hA hB]
    simp
  have hd1 : deref (A0 ++ a :: (k, x) :: B) (some k) = some x := by
    rw [e1, deref_split _ _ _ _ hA]
  have hd2 : deref (A0 ++ a :: (k, x) :: B) (some a.1) = some a.2 :=
    deref_split A0 ((k, x) :: B) a.1 a.2 hA0
  have her : map_erase (A0 ++ a :: (k, x) :: B) (some k) = some (A0 ++ a :: B) := by
    rw [e1, erase_split _ _ _ _ hA hB]
    simp
  rw [canon_loop]
  simp only [hleft, if_false, hprev, hd1, hd2, Option.some_bind, her]
  by_cases hx : x = a.2 <;> simp [hx]

theorem canon_loop_exit (n : Nat) (m : Records K V) (it : Iter K) :
    canon_loop n m it it = some m := by
  cases n <;> simp [canon_loop]

/-- Lines 44-47 of `insert`: after the record at `b` is written and the records between
`b` and `e` are erased, the records are `L`, `(b, v)`, `(e, c)`, `R`. -/
theorem erase_between (L M R : Records K V) (b e : K) (v c : V) (hbe : b < e)
    (hL : ∀ p ∈ L, p.1 < b) (hM : ∀ p ∈ M, b < p.1 ∧ p.1 < e) (hR : ∀ p ∈ R, e < p.1)
    (sM : I1 M) :
    (std_next (L ++ (b, v) :: (M ++ (e, c) :: R)) (some b)).bind
        (fun first => map_erase_range (L ++ (b, v) :: (M ++ (e, c) :: R)) first (some e))
      = some (L ++ (b, v) :: (e, c) :: R) := by
  have hB : ∀ p ∈ M ++ (e, c) :: R, b < p.1 := by
    intro p hp
    rcases List.mem_append.1 hp with h | h
    · exact (hM p h).1
    · rcases List.mem_cons.1 h with rfl | h
      · exact hbe
      · exact lt_trans hbe (hR p h)
  rw [next_split L _ b v hL hB]
  have hkb : ∀ f, hasKey (L ++ (b, v) :: (M ++ (e, c) :: R)) f = true
      ↔ ∃ p ∈ L ++ (b, v) :: (M ++ (e, c) :: R), p.1 = f := fun f => hasKey_iff _ f
  have hke : hasKey (L ++ (b, v) :: (M ++ (e, c) :: R)) e = true := by
    rw [hkb]
    exact ⟨(e, c), by simp, rfl⟩
  have hL2 : ∀ f, b < f → L.filter (fun p => decide (p.1 < f) || decide (e ≤ p.1)) = L := by
    intro f hf
    rw [List.filter_eq_self]
    intro p hp
    have : p.1 < f := lt_trans (hL p hp) hf
    simp [this]
  have hR2 : ∀ f, R.filter (fun p => decide (p.1 < f) || decide (e ≤ p.1)) = R := by
    intro f
    rw [List.filter_eq_self]
    intro p hp
    have : e ≤ p.1 := le_of_lt (hR p hp)
    simp [this]
  cases M with
  | nil =>
    simp only [List.nil_append] at hke ⊢
    simp [map_erase_range, hke, List.filter_append, List.filter_cons, hL2 e hbe, hR2 e, hbe]
  | cons x M =>
    have hx := hM x (by simp)
    have hkx : hasKey (L ++ (b, v) :: (x :: M ++ (e, c) :: R)) x.1 = true := by
      rw [hkb]
      exact ⟨x, by simp, rfl⟩
    have hM2 : (x :: M).filter (fun p => decide (p.1 < x.1) || decide (e ≤ p.1)) = [] := by
      rw [List.filter_eq_nil_iff]
      intro p hp
      have h1 : p.1 < e := (hM p hp).2
      have h2 : x.1 ≤ p.1 := by
        rcases List.mem_cons.1 hp with rfl | h
        · exact le_refl _
        · exact le_of_lt ((I1_cons.1 sM).1 p h)
      simp [h1, h2]
    have e1 : L ++ (b, v) :: (x :: M ++ (e, c) :: R)
        = L ++ ([(b, v)] ++ ((x :: M) ++ ([(e, c)] ++ R))) := by simp
    simp only [List.head?_cons, List.cons_append, Option.map_some', Option.some_bind,
      map_erase_range]
    simp only [List.cons_append] at hkx hke
    simp only [hkx, hke, le_of_lt hx.2, Bool.and_self, decide_True, if_true]
    rw [← List.cons_append, e1]
    simp only [List.filter_append, hL2 x.1 hx.1, hR2 x.1, hM2]
    simp [List.filter_cons, hx.1]

/-- Lines 50-68 of `insert` on the records `L`, `(b, v)`, `(e, c)`, `R`. -/
theorem canonicalize_eq (d : V) (L R : Records K V) (b e : K) (v c : V) (hbe : b < e)
    (hL : ∀ p ∈ L, p.1 < b) (hR : ∀ p ∈ R, e < p.1) (sL : I1 L) (n : Nat) :
    ((if some b ≠ map_begin (L ++ (b, v) :: (e, c) :: R)
        then std_prev (L ++ (b, v) :: (e, c) :: R) (some b) else some (some b)).bind
      fun left_it =>
      (canon_loop (n + 2) (L ++ (b, v) :: (e, c) :: R) (some e) left_it).bind fun map_ =>
      (if left_it = map_begin map_ then (deref map_ left_it).map (fun x => decide (x = d))
        else some false).bind fun t =>
      if t then (map_erase map_ left_it).map fun map_ => (⟨d, map_⟩ : interval_map K V)
      else some ⟨d, map_⟩)
      = some ⟨d, insertResult d L R b e v c⟩ := by
  have hR' : ∀ p ∈ (if c = v then [] else [(e, c)]) ++ R, b < p.1 := by
    intro p hp
    rcases List.mem_append.1 hp with h | h
    · by_cases hc : c = v
      · simp [hc] at h
      · simp [hc] at h
        subst h
        exact hbe
    · exact lt_trans hbe (hR p h)
  rcases List.eq_nil_or_concat L with rfl | ⟨L0, l, rfl⟩
  · have h1 := canon_loop_step (n + 1) [] R (b, v) e c (some b) (by simp [ne_of_gt hbe])
      (by simp) hbe hR
    simp only [List.nil_append] at h1 ⊢
    simp only [map_begin, List.head?_cons, Option.map_some', ne_eq, not_true_eq_false,
      if_false, Option.some_bind, h1, canon_loop_exit]
    have hd := deref_split [] ((if c = v then [] else [(e, c)]) ++ R) b v (by simp)
    have he := erase_split [] ((if c = v then [] else [(e, c)]) ++ R) b v (by simp) hR'
    simp only [List.nil_append] at hd he
    simp only [if_true, hd, he, Option.map_some', Option.some_bind, insertResult, trimLeft,
      lastVal, List.nil_append]
    by_cases hv : v = d <;> simp [hv]
  · rw [List.concat_eq_append] at *
    have hlb : l.1 < b := hL l (by simp)
    have hL0 : ∀ p ∈ L0, p.1 < l.1 := fun p hp => (I1_append.1 sL).2.2 p hp l (by simp)
    have hbeg : some b ≠ map_begin (L0 ++ [l] ++ (b, v) :: (e, c) :: R) := by
      cases L0 with
      | nil => simpa [map_begin] using ne_of_gt hlb
      | cons x L0 => simpa [map_begin] using ne_of_gt (hL x (by simp))
    have hprev : std_prev (L0 ++ [l] ++ (b, v) :: (e, c) :: R) (some b) = some (some l.1) := by
      rw [prev_split _ _ _ _ hL (by
        intro p hp
        rcases List.mem_cons.1 hp with rfl | h
        · exact hbe
        · exact lt_trans hbe (hR p h))]
      simp
    have h1 := canon_loop_step (n + 1) (L0 ++ [l]) R (b, v) e c (some l.1)
      (by simpa using ne_of_gt (lt_trans hlb hbe)) hL hbe hR
    have h2 := canon_loop_step n L0 ((if c = v then [] else [(e, c)]) ++ R) l b v (some l.1)
      (by simpa using ne_of_gt hlb) hL0 hlb hR'
    simp only [List.append_assoc, List.singleton_append] at hbeg hprev h1 h2 ⊢
    simp only [hbeg, if_true, hprev, Option.some_bind, h1, h2, canon_loop_exit,
      ne_eq, not_false_eq_true]
    have hd := deref_split L0 ((if v = l.2 then [] else [(b, v)]) ++
      ((if c = v then [] else [(e, c)]) ++ R)) l.1 l.2 hL0
    have he := erase_split L0 ((if v = l.2 then [] else [(b, v)]) ++
      ((if c = v then [] else [(e, c)]) ++ R)) l.1 l.2 hL0 (by
        intro p hp
        rcases List.mem_append.1 hp with h | h
        · by_cases hc : v = l.2
          · simp [hc] at h
          · simp [hc] at h
            subst h
            exact hlb
        · exact lt_trans hlb (hR' p h))
    simp only [Prod.mk.eta] at hd he
    cases L0 with
    | nil =>
      simp only [List.nil_append] at hd he ⊢
      simp only [map_begin, List.head?_cons, Option.map_some', if_true, hd, he,
        Option.some_bind, insertResult, trimLeft, lastVal]
      by_cases hv : l.2 = d <;> simp [hv]
    | cons x L0 =>
      have hx : x.1 ≠ l.1 := ne_of_lt (hL0 x (by simp))
      have hx' : ¬ l.1 = x.1 := fun h => hx h.symm
      simp [map_begin, hx', insertResult, trimLeft, lastVal, lastVal_append]

theorem below_below (m : Records K V) {b e : K} (hbe : b < e) :
    below (below m e) b = below m b := by
  simp only [below, List.filter_filter]
  apply List.filter_congr
  intro p _
  by_cases h : p.1 < b
  · simp [h, lt_trans h hbe]
  · simp [h]

theorem upto_split (A B : Records K V) (k : K) (x : V)
    (hA : ∀ p ∈ A, p.1 < k) (hB : ∀ p ∈ B, k < p.1) :
    upto (A ++ (k, x) :: B) k = A ++ [(k, x)] := by
  have h1 : upto A k = A := upto_of_le A k (fun p hp => le_of_lt (hA p hp))
  have h2 : upto B k = [] := upto_of_lt B k hB
  have h3 : upto [(k, x)] k = [(k, x)] := by simp [upto]
  have : A ++ (k, x) :: B = A ++ ([(k, x)] ++ B) := by simp
  rw [this, upto_append, upto_append, h1, h2, h3]
  simp

theorem upto_split_none (A B : Records K V) (k : K)
    (hA : ∀ p ∈ A, p.1 < k) (hB : ∀ p ∈ B, k < p.1) : upto (A ++ B) k = A := by
  rw [upto_append, upto_of_le A k (fun p hp => le_of_lt (hA p hp)), upto_of_lt B k hB]
  simp

/-- Lines 23-41 of `insert` on a sorted map: the record at `key_end` carries the value
that held at `key_end` before. -/
theorem insert_end_record_eq (d : V) {m : Records K V} (hs : I1 m) (e : K) :
    insert_end_record d m e
      = some (below m e ++ (e, lastVal d (upto m e)) :: above m e, some e) := by
  have hA : ∀ p ∈ below m e, p.1 < e := fun p hp => (mem_below.1 hp).2
  have hB : ∀ p ∈ above m e, e < p.1 := fun p hp => (mem_above.1 hp).2
  by_cases hk : hasKey m e = true
  · obtain ⟨p, hp, rfl⟩ := (hasKey_iff m e).1 hk
    have hm := sorted_split_mem hs hp
    have hu : upto m p.1 = below m p.1 ++ [(p.1, p.2)] := by
      conv_lhs => rw [hm]
      exact upto_split _ _ p.1 p.2 hA hB
    rw [hu, lastVal_append]
    simp only [lastVal]
    conv_lhs => rw [hm]
    exact insert_end_record_present d _ _ p.1 p.2 hA hB
  · have hk' : hasKey m e = false := by simpa using hk
    have hm := sorted_split_absent hs hk'
    have hu : upto m e = below m e := by
      conv_lhs => rw [hm]
      exact upto_split_none _ _ e hA hB
    rw [hu]
    conv_lhs => rw [hm]
    exact insert_end_record_absent d _ _ e hA hB (I1_below hs e) (I1_above hs e)

/-- The member function `insert` in closed form, on a sorted map and a non-empty
interval. -/
theorem insert_eq (d : V) {m : Records K V} (hs : I1 m) (b e : K) (hbe : b < e) (v : V) :
    insert ⟨d, m⟩ b e v
      = some ⟨d, insertResult d (below m b) (above m e) b e v (lastVal d (upto m e))⟩ := by
  have hL : ∀ p ∈ below m b, p.1 < b := fun p hp => (mem_below.1 hp).2
  have hR : ∀ p ∈ above m e, e < p.1 := fun p hp => (mem_above.1 hp).2
  have hM : ∀ p ∈ above (below m e) b, b < p.1 ∧ p.1 < e :=
    fun p hp => ⟨(mem_above.1 hp).2, (mem_below.1 (mem_above.1 hp).1).2⟩
  have sM : I1 (above (below m e) b) := I1_above (I1_below hs e) b
  generalize hc : lastVal d (upto m e) = c
  have h1 : insert_end_record d m e = some (below m e ++ (e, c) :: above m e, some e) := by
    rw [insert_end_record_eq d hs e, hc]
  have h2 : map_insert_or_assign (below m e ++ (e, c) :: above m e) b v
      = (below m b ++ (b, v) :: (above (below m e) b ++ (e, c) :: above m e), some b) := by
    have e1 : below m e ++ (e, c) :: above m e = below m e ++ ([(e, c)] ++ above m e) := by
      simp
    have e2 : below (above m e) b = [] :=
      below_of_not_lt _ _ (fun p hp => not_lt_of_gt (lt_trans hbe (hR p hp)))
    have e3 : above (above m e) b = above m e :=
      above_of_lt _ _ (fun p hp => lt_trans hbe (hR p hp))
    have e4 : below [(e, c)] b = [] := by simp [below, not_lt_of_gt hbe]
    have e5 : above [(e, c)] b = [(e, c)] := by simp [above, hbe]
    simp only [map_insert_or_assign]
    rw [e1, below_append, below_append, above_append, above_append, e2, e3, e4, e5,
      below_below m hbe]
    simp
  have h3 := erase_between (below m b) (above (below m e) b) (above m e) b e v c hbe hL hM hR sM
  have h4 : ∃ n, (below m b ++ (b, v) :: (e, c) :: above m e).length = n + 2 :=
    ⟨(below m b).length + (above m e).length, by simp; omega⟩
  obtain ⟨n, h4⟩ := h4
  have h5 := canonicalize_eq d (below m b) (above m e) b e v c hbe hL hR (I1_below hs b) n
  unfold insert
  simp only [ge_iff_le, not_le.2 hbe, if_false, h1, Option.some_bind, h2]
  cases hn : std_next (below m b ++ (b, v) :: (above (below m e) b ++ (e, c) :: above m e))
      (some b) with
  | none => simp [hn] at h3
  | some first =>
    simp only [hn, Option.some_bind] at h3 ⊢
    simp only [h3, Option.some_bind, h4]
    exact h5

/-! ## The member function `at` in closed form -/

theorem at_split (d : V) (P Q : Records K V) (k : K)
    (hP : ∀ p ∈ P, p.1 ≤ k) (hQ : ∀ p ∈ Q, k < p.1) (sP : I1 P) (sQ : I1 Q) :
    at_ ⟨d, P ++ Q⟩ k = some (lastVal d P) := by
  have hub : map_upper_bound (P ++ Q) k = Q.head?.map Prod.fst := by
    have h1 : above P k = [] := above_of_not_lt P k (fun p hp => not_lt_of_ge (hP p hp))
    have h2 : above Q k = Q := above_of_lt Q k hQ
    simp [map_upper_bound, above_append, h1, h2]
  rcases List.eq_nil_or_concat P with rfl | ⟨P0, a, rfl⟩
  · simp only [List.nil_append] at hub ⊢
    simp [at_, hub, map_begin, lastVal]
  · rw [List.concat_eq_append] at *
    have hne : Q.head?.map Prod.fst ≠ map_begin (P0 ++ [a] ++ Q) :=
      head_key_ne_of_le (by simp) hP hQ
    have hP0 : ∀ p ∈ P0, p.1 < a.1 := fun p hp => (I1_append.1 sP).2.2 p hp a (by simp)
    have hprev : std_prev (P0 ++ [a] ++ Q) (Q.head?.map Prod.fst) = some (some a.1) := by
      cases Q with
      | nil => simp [std_prev]
      | cons q Q =>
        have hq : ∀ p ∈ P0 ++ [a], p.1 < q.1 :=
          fun p hp => lt_of_le_of_lt (hP p hp) (hQ q (by simp))
        have := prev_split (P0 ++ [a]) Q q.1 q.2 hq (I1_cons.1 sQ).1
        simpa using this
    have hd : deref (P0 ++ [a] ++ Q) (some a.1) = some a.2 := by
      have := deref_split P0 Q a.1 a.2 hP0
      simpa using this
    simp only [List.append_assoc, List.singleton_append] at hub hne hprev hd ⊢
    simp [at_, hub, hne, hprev, hd, lastVal_append, lastVal]

theorem mem_upto {m : Records K V} {k : K} {p : K × V} : p ∈ upto m k ↔ p ∈ m ∧ p.1 ≤ k := by
  simp [upto]

theorem I1_upto {m : Records K V} (h : I1 m) (k : K) : I1 (upto m k) :=
  List.Pairwise.filter _ h

/-- On a sorted map `at` returns the value of the last record whose key is at most
`key`, or the default value when there is none. -/
theorem at_eq (d : V) {m : Records K V} (hs : I1 m) (k : K) :
    at_ ⟨d, m⟩ k = some (lastVal d (upto m k)) := by
  have hm := sorted_split_upto hs k
  conv_lhs => rw [hm]
  exact at_split d _ _ k (fun p hp => (mem_upto.1 hp).2) (fun p hp => (mem_above.1 hp).2)
    (I1_upto hs k) (I1_above hs k)

/-! ## Properties of the closed form -/

theorem trimLeft_sublist (d : V) (L : Records K V) : (trimLeft d L).Sublist L := by
  unfold trimLeft
  split
  · split <;> simp
  · exact List.Sublist.refl _

theorem lastVal_trimLeft (d : V) (L : Records K V) : lastVal d (trimLeft d L) = lastVal d L := by
  unfold trimLeft
  split
  · rename_i l
    by_cases h : l.2 = d <;> simp [h, lastVal]
  · rfl

theorem trimLeft_of_canon (d : V) (L : Records K V) (h : Canon d L) : trimLeft d L = L := by
  unfold trimLeft
  split
  · rename_i l
    simp [Canon] at h
    simp [h]
  · rfl

theorem insertResult_sublist (d : V) (L R : Records K V) (b e : K) (v c : V) :
    (insertResult d L R b e v c).Sublist (L ++ ([(b, v)] ++ ([(e, c)] ++ R))) := by
  unfold insertResult
  apply List.Sublist.append (trimLeft_sublist d L)
  apply List.Sublist.append
  · split <;> simp
  · apply List.Sublist.append _ (List.Sublist.refl _)
    split <;> simp

theorem I1_insertResult (d : V) (L R : Records K V) (b e : K) (v c : V) (hbe : b < e)
    (hL : ∀ p ∈ L, p.1 < b) (hR : ∀ p ∈ R, e < p.1) (sL : I1 L) (sR : I1 R) :
    I1 (insertResult d L R b e v c) := by
  apply List.Pairwise.sublist (insertResult_sublist d L R b e v c)
  show I1 _
  simp only [I1_append, I1_cons, List.mem_append, List.mem_singleton, List.singleton_append,
    List.mem_cons]
  refine ⟨sL, ⟨?_, ?_, sR⟩, ?_⟩
  · rintro q (rfl | hq)
    · exact hbe
    · exact lt_trans hbe (hR q hq)
  · exact hR
  · rintro p hp q (rfl | rfl | hq)
    · exact hL p hp
    · exact lt_trans (hL p hp) hbe
    · exact lt_trans (hL p hp) (lt_trans hbe (hR q hq))

theorem mem_ite_singleton {c : Prop} [Decidable c] {x p : K × V}
    (h : p ∈ (if c then [] else [x])) : p = x := by
  by_cases hc : c
  · simp [hc] at h
  · simpa [hc] using h

theorem lastVal_ite_singleton (c : Prop) [Decidable c] (w : V) (x : K × V) :
    lastVal w (if c then [] else [x]) = if c then w else x.2 := by
  by_cases hc : c <;> simp [hc, lastVal]

section ClosedForm

variable (d : V) (L R : Records K V) (b e : K) (v c : V)

theorem below_insertResult (hbe : b < e) (hL : ∀ p ∈ L, p.1 < b) (hR : ∀ p ∈ R, e < p.1) :
    below (insertResult d L R b e v c) b = trimLeft d L := by
  unfold insertResult
  rw [below_append, below_append, below_append,
    below_of_lt _ b (fun p hp => hL p ((trimLeft_sublist d L).subset hp)),
    below_of_not_lt _ b (fun p hp => by rw [mem_ite_singleton hp]; exact lt_irrefl b),
    below_of_not_lt _ b (fun p hp => by rw [mem_ite_singleton hp]; exact not_lt_of_gt hbe),
    below_of_not_lt R b (fun p hp => not_lt_of_gt (lt_trans hbe (hR p hp)))]
  simp

theorem above_insertResult (hbe : b < e) (hL : ∀ p ∈ L, p.1 < b) (hR : ∀ p ∈ R, e < p.1) :
    above (insertResult d L R b e v c) e = R := by
  unfold insertResult
  rw [above_append, above_append, above_append,
    above_of_not_lt _ e (fun p hp =>
      not_lt_of_gt (lt_trans (hL p ((trimLeft_sublist d L).subset hp)) hbe)),
    above_of_not_lt _ e (fun p hp => by rw [mem_ite_singleton hp]; exact not_lt_of_gt hbe),
    above_of_not_lt _ e (fun p hp => by rw [mem_ite_singleton hp]; exact lt_irrefl e),
    above_of_lt R e hR]
  simp

/-- The value that holds just left of `e` in the closed form is `v`. -/
theorem lastVal_left_part :
    lastVal d (trimLeft d L ++ (if v = lastVal d L then [] else [(b, v)])) = v := by
  rw [lastVal_append, lastVal_trimLeft, lastVal_ite_singleton]
  by_cases h : v = lastVal d L <;> simp [h]

/-- The value that holds at `e` in the closed form is the carried value `c`. -/
theorem lastVal_mid_part :
    lastVal d (trimLeft d L ++ ((if v = lastVal d L then [] else [(b, v)]) ++
      (if c = v then [] else [(e, c)]))) = c := by
  rw [← List.append_assoc, lastVal_append, lastVal_left_part, lastVal_ite_singleton]
  by_cases h : c = v <;> simp [h]

theorem upto_insertResult_inside (hL : ∀ p ∈ L, p.1 < b)
    (hR : ∀ p ∈ R, e < p.1) (k : K) (hbk : b ≤ k) (hke : k < e) :
    upto (insertResult d L R b e v c) k
      = trimLeft d L ++ (if v = lastVal d L then [] else [(b, v)]) := by
  unfold insertResult
  rw [upto_append, upto_append, upto_append,
    upto_of_le _ k (fun p hp =>
      le_trans (le_of_lt (hL p ((trimLeft_sublist d L).subset hp))) hbk),
    upto_of_le _ k (fun p hp => by rw [mem_ite_singleton hp]; exact hbk),
    upto_of_lt _ k (fun p hp => by rw [mem_ite_singleton hp]; exact hke),
    upto_of_lt R k (fun p hp => lt_trans hke (hR p hp))]
  simp

theorem upto_insertResult_left (hbe : b < e) (hR : ∀ p ∈ R, e < p.1) (k : K) (hkb : k < b) :
    upto (insertResult d L R b e v c) k = upto (trimLeft d L) k := by
  unfold insertResult
  rw [upto_append, upto_append, upto_append,
    upto_of_lt (if v = lastVal d L then [] else [(b, v)]) k
      (fun p hp => by rw [mem_ite_singleton hp]; exact hkb),
    upto_of_lt (if c = v then [] else [(e, c)]) k
      (fun p hp => by rw [mem_ite_singleton hp]; exact lt_trans hkb hbe),
    upto_of_lt R k (fun p hp => lt_trans hkb (lt_trans hbe (hR p hp)))]
  simp

theorem upto_insertResult_right (hbe : b < e) (hL : ∀ p ∈ L, p.1 < b) (k : K) (hek : e ≤ k) :
    upto (insertResult d L R b e v c) k
      = trimLeft d L ++ ((if v = lastVal d L then [] else [(b, v)]) ++
          (if c = v then [] else [(e, c)])) ++ upto R k := by
  unfold insertResult
  rw [upto_append, upto_append, upto_append,
    upto_of_le _ k (fun p hp =>
      le_trans (le_of_lt (lt_trans (hL p ((trimLeft_sublist d L).subset hp)) hbe)) hek),
    upto_of_le _ k (fun p hp => by rw [mem_ite_singleton hp]; exact le_trans (le_of_lt hbe) hek),
    upto_of_le _ k (fun p hp => by rw [mem_ite_singleton hp]; exact hek)]
  simp

theorem canon_insertResult (hL : Canon d L) (hR : Canon c R) :
    Canon d (insertResult d L R b e v c) := by
  unfold insertResult
  rw [trimLeft_of_canon d L hL, canon_append, canon_append, canon_append,
    lastVal_ite_singleton, lastVal_ite_singleton]
  have hv : (if v = lastVal d L then lastVal d L else (b, v).2) = v := by
    by_cases h : v = lastVal d L <;> simp [h]
  have hc : (if c = v then v else (e, c).2) = c := by
    by_cases h : c = v <;> simp [h]
  rw [hv, hc]
  refine ⟨hL, ?_, ?_, hR⟩
  · by_cases h : v = lastVal d L <;> simp [h, Canon]
  · by_cases h : c = v <;> simp [h, Canon]

end ClosedForm

/-! ## The invariant along `insert` calls -/

theorem upto_below (m : Records K V) {k b : K} (hkb : k < b) :
    upto (below m b) k = upto m k := by
  simp only [upto, below, List.filter_filter]
  apply List.filter_congr
  intro p _
  by_cases h : p.1 ≤ k
  · simp [h, lt_of_le_of_lt h hkb]
  · simp [h]

theorem upto_of_sorted_le {m : Records K V} (hs : I1 m) {e k : K} (hek : e ≤ k) :
    upto m k = upto m e ++ upto (above m e) k := by
  conv_lhs => rw [sorted_split_upto hs e]
  rw [upto_append, upto_of_le (upto m e) k (fun p hp => le_trans (mem_upto.1 hp).2 hek)]

theorem canon_below {d : V} {m : Records K V} (hs : I1 m) (hc : Canon d m) (b : K) :
    Canon d (below m b) := by
  rw [sorted_split_below hs b, canon_append] at hc
  exact hc.1

theorem canon_above {d : V} {m : Records K V} (hs : I1 m) (hc : Canon d m) (e : K) :
    Canon (lastVal d (upto m e)) (above m e) := by
  rw [sorted_split_upto hs e, canon_append] at hc
  exact hc.2

/-- The two outcomes of `insert` on a sorted map. -/
theorem insert_cases (s : interval_map K V) (hs : I1 s.map_) (b e : K) (v : V) :
    (e ≤ b ∧ insert s b e v = some s) ∨
    (b < e ∧ insert s b e v = some ⟨s.begin_value_, insertResult s.begin_value_
      (below s.map_ b) (above s.map_ e) b e v (lastVal s.begin_value_ (upto s.map_ e))⟩) := by
  by_cases h : b < e
  · exact Or.inr ⟨h, insert_eq s.begin_value_ hs b e h v⟩
  · have h' : e ≤ b := not_lt.1 h
    exact Or.inl ⟨h', by simp [insert, h']⟩

theorem I1_insert_result (s : interval_map K V) (hs : I1 s.map_) (b e : K) (v : V) (hbe : b < e) :
    I1 (insertResult s.begin_value_ (below s.map_ b) (above s.map_ e) b e v
      (lastVal s.begin_value_ (upto s.map_ e))) :=
  I1_insertResult _ _ _ b e v _ hbe (fun _ hp => (mem_below.1 hp).2)
    (fun _ hp => (mem_above.1 hp).2) (I1_below hs b) (I1_above hs e)

theorem insert_inv (s : interval_map K V) (hs : Inv s) (b e : K) (v : V) :
    ∃ s', insert s b e v = some s' ∧ Inv s' ∧ s'.begin_value_ = s.begin_value_ := by
  rcases insert_cases s hs.1 b e v with ⟨_, h⟩ | ⟨hbe, h⟩
  · exact ⟨s, h, hs, rfl⟩
  · refine ⟨_, h, ⟨I1_insert_result s hs.1 b e v hbe, ?_⟩, rfl⟩
    exact canon_insertResult _ _ _ b e v _ (canon_below hs.1 hs.2 b) (canon_above hs.1 hs.2 e)

theorem inserts_inv (calls : List (K × K × V)) (s : interval_map K V) (hs : Inv s) :
    ∃ s', inserts s calls = some s' ∧ Inv s' := by
  induction calls generalizing s with
  | nil => exact ⟨s, rfl, hs⟩
  | cons c calls ih =>
    obtain ⟨b, e, v⟩ := c
    obtain ⟨s1, h1, hi1, _⟩ := insert_inv s hs b e v
    obtain ⟨s2, h2, hi2⟩ := ih s1 hi1
    exact ⟨s2, by simp [inserts, h1, h2], hi2⟩

theorem new_inv (d : V) : Inv (new d : interval_map K V) := by
  simp [Inv, new, I1, Canon]

theorem reachable_inv {s : interval_map K V} (h : Reachable s) : Inv s := by
  obtain ⟨d, calls, hc⟩ := h
  obtain ⟨s', h1, h2⟩ := inserts_inv calls (new d) (new_inv d)
  rw [hc] at h1
  cases h1
  exact h2

theorem lastVal_eq_of_greatest (d : V) {A : Records K V} (sA : I1 A) {p : K × V}
    (hp : p ∈ A) (hmax : ∀ q ∈ A, q.1 ≤ p.1) : lastVal d A = p.2 := by
  rcases List.eq_nil_or_concat A with rfl | ⟨A0, a, rfl⟩
  · simp at hp
  · rw [List.concat_eq_append] at *
    have ha : a.1 ≤ p.1 := hmax a (by simp)
    rcases List.mem_append.1 hp with h | h
    · exact absurd ((I1_append.1 sA).2.2 p h a (by simp)) (not_lt_of_ge ha)
    · simp at h
      subst h
      simp [lastVal_append, lastVal]

theorem trimLeft_trimLeft (d : V) (L : Records K V) :
    trimLeft d (trimLeft d L) = trimLeft d L := by
  match L with
  | [] => rfl
  | [l] => by_cases h : l.2 = d <;> simp [trimLeft, h]
  | _ :: _ :: _ => rfl

theorem insertResult_trimLeft (d : V) (L R : Records K V) (b e : K) (v c : V) :
    insertResult d (trimLeft d L) R b e v c = insertResult d L R b e v c := by
  simp only [insertResult, trimLeft_trimLeft, lastVal_trimLeft]

/-- Applying `insert` to its own result changes nothing. -/
theorem insert_insertResult (s : interval_map K V) (hs : I1 s.map_) (b e : K) (v : V)
    (hbe : b < e) :
    insert ⟨s.begin_value_, insertResult s.begin_value_ (below s.map_ b) (above s.map_ e)
        b e v (lastVal s.begin_value_ (upto s.map_ e))⟩ b e v
      = some ⟨s.begin_value_, insertResult s.begin_value_ (below s.map_ b) (above s.map_ e)
        b e v (lastVal s.begin_value_ (upto s.map_ e))⟩ := by
  have hL : ∀ p ∈ below s.map_ b, p.1 < b := fun p hp => (mem_below.1 hp).2
  have hR : ∀ p ∈ above s.map_ e, e < p.1 := fun p hp => (mem_above.1 hp).2
  rw [insert_eq _ (I1_insert_result s hs b e v hbe) b e hbe v,
    below_insertResult _ _ _ b e v _ hbe hL hR, above_insertResult _ _ _ b e v _ hbe hL hR,
    upto_insertResult_right _ _ _ b e v _ hbe hL e (le_refl e),
    upto_of_lt (above s.map_ e) e hR, List.append_nil, lastVal_mid_part,
    insertResult_trimLeft]

/-! ## The driver `main` (lines 95-122) -/

/-- The embedding reproduces what `main` prints after each of its first six `insert`
calls (the comments of lines 100-115). -/
theorem main_prints :
    (inserts (new 'a' : interval_map Int Char) [(3, 5, 'b')]).map traverse
      = some [(3, 'b'), (5, 'a')] ∧
    (inserts (new 'a' : interval_map Int Char) [(3, 5, 'b'), (2, 3, 'c')]).map traverse
      = some [(2, 'c'), (3, 'b'), (5, 'a')] ∧
    (inserts (new 'a' : interval_map Int Char) [(3, 5, 'b'), (2, 3, 'c'), (2, 3, 'd')]).map
      traverse = some [(2, 'd'), (3, 'b'), (5, 'a')] ∧
    (inserts (new 'a' : interval_map Int Char)
      [(3, 5, 'b'), (2, 3, 'c'), (2, 3, 'd'), (2, 4, 'e')]).map traverse
      = some [(2, 'e'), (4, 'b'), (5, 'a')] ∧
    (inserts (new 'a' : interval_map Int Char)
      [(3, 5, 'b'), (2, 3, 'c'), (2, 3, 'd'), (2, 4, 'e'), (4, 18, 'f')]).map traverse
      = some [(2, 'e'), (4, 'f'), (18, 'a')] ∧
    (inserts (new 'a' : interval_map Int Char)
      [(3, 5, 'b'), (2, 3, 'c'), (2, 3, 'd'), (2, 4, 'e'), (4, 18, 'f'), (2, 8, 'g')]).map
      traverse = some [(2, 'g'), (8, 'f'), (18, 'a')] := by
  decide

/-- The embedding reproduces the six lookups that `main` prints (lines 117-122). -/
theorem main_lookups :
    [-100, 2, 4, 5, 12, 18].map (at_ (⟨'a', [(2, 'g'), (8, 'f'), (18, 'a')]⟩ :
      interval_map Int Char))
      = [some 'a', some 'g', some 'g', some 'g', some 'f', some 'a'] := by
  decide

/-! ## The contract of `interval_map` -/

/-- C1, range-write correctness: in every state of the map (the keys of a `std::map`
ascend strictly), for `key_begin < key_end` the call `insert(key_begin, key_end, val)`
returns, and right after it `at(k)` returns `val` for every `k` with
`key_begin ≤ k < key_end`. -/
theorem insert_range_write (s : interval_map K V) (hs : I1 s.map_) (b e : K) (v : V) (k : K)
    (hbe : b < e) (hbk : b ≤ k) (hke : k < e) :
    ∃ s', insert s b e v = some s' ∧ at_ s' k = some v := by
  refine ⟨_, insert_eq s.begin_value_ hs b e hbe v, ?_⟩
  rw [at_eq _ (I1_insert_result s hs b e v hbe),
    upto_insertResult_inside _ _ _ b e v _ (fun p hp => (mem_below.1 hp).2)
      (fun p hp => (mem_above.1 hp).2) k hbk hke,
    lastVal_left_part]

theorem insert_range_write_witness :
    ∃ s', insert (⟨0, [(1, 4), (3, 5), (8, 0)]⟩ : interval_map Int Nat) 2 8 7 = some s' ∧
      at_ s' 5 = some 7 :=
  insert_range_write ⟨0, [(1, 4), (3, 5), (8, 0)]⟩ (by decide) 2 8 7 5 (by decide) (by decide)
    (by decide)

/-- C2, frame correctness: in every state reachable from a new map by `insert` calls,
for all `key_begin`, `key_end`, `val` the call returns, and `at(k)` is the same after it
as before for every `k < key_begin` and every `k ≥ key_end` (so also at `key_end`). -/
theorem insert_frame (s : interval_map K V) (hr : Reachable s) (b e : K) (v : V) (k : K)
    (hk : k < b ∨ e ≤ k) :
    ∃ s' x, insert s b e v = some s' ∧ at_ s k = some x ∧ at_ s' k = some x := by
  have hi := reachable_inv hr
  rcases insert_cases s hi.1 b e v with ⟨_, h⟩ | ⟨hbe, h⟩
  · exact ⟨s, _, h, at_eq s.begin_value_ hi.1 k, at_eq s.begin_value_ hi.1 k⟩
  · refine ⟨_, _, h, at_eq s.begin_value_ hi.1 k, ?_⟩
    have hL : ∀ p ∈ below s.map_ b, p.1 < b := fun p hp => (mem_below.1 hp).2
    have hR : ∀ p ∈ above s.map_ e, e < p.1 := fun p hp => (mem_above.1 hp).2
    rw [at_eq _ (I1_insert_result s hi.1 b e v hbe)]
    rcases hk with hkb | hek
    · rw [upto_insertResult_left _ _ _ b e v _ hbe hR k hkb,
        trimLeft_of_canon _ _ (canon_below hi.1 hi.2 b), upto_below _ hkb]
    · rw [upto_insertResult_right _ _ _ b e v _ hbe hL k hek, lastVal_append,
        lastVal_mid_part, upto_of_sorted_le hi.1 hek, lastVal_append]

theorem insert_frame_witness :
    ∃ s' x, insert (⟨0, [(1, 4), (3, 5), (8, 0)]⟩ : interval_map Int Nat) 2 5 7 = some s' ∧
      at_ (⟨0, [(1, 4), (3, 5), (8, 0)]⟩ : interval_map Int Nat) 5 = some x ∧
      at_ s' 5 = some x :=
  insert_frame ⟨0, [(1, 4), (3, 5), (8, 0)]⟩ ⟨0, [(1, 8, 4), (3, 8, 5)], by decide⟩ 2 5 7 5
    (by decide)

/-- C3, no-op on degenerate input: in every state, for `key_begin ≥ key_end` the call
`insert(key_begin, key_end, val)` returns without an error and leaves the records, the
default value and every `at(k)` as they were. -/
theorem insert_degenerate (s : interval_map K V) (b e : K) (v : V) (hbe : b ≥ e) :
    ∃ s', insert s b e v = some s' ∧ traverse s' = traverse s ∧
      s'.begin_value_ = s.begin_value_ ∧ ∀ k, at_ s' k = at_ s k :=
  ⟨s, by simp [insert, hbe], rfl, rfl, fun _ => rfl⟩

theorem insert_degenerate_witness :
    ∃ s', insert (⟨0, [(1, 4), (3, 5), (8, 0)]⟩ : interval_map Int Nat) 5 5 7 = some s' ∧
      traverse s' = traverse (⟨0, [(1, 4), (3, 5), (8, 0)]⟩ : interval_map Int Nat) ∧
      s'.begin_value_ = (⟨0, [(1, 4), (3, 5), (8, 0)]⟩ : interval_map Int Nat).begin_value_ ∧
      ∀ k, at_ s' k = at_ (⟨0, [(1, 4), (3, 5), (8, 0)]⟩ : interval_map Int Nat) k :=
  insert_degenerate ⟨0, [(1, 4), (3, 5), (8, 0)]⟩ 5 5 7 (by decide)

/-- C4, invariant I2 is preserved: when the records satisfy I1, I2 and I3, `insert`
returns and afterwards no two consecutive records hold equal values; hence after any
sequence of `insert` calls on a new map I2 holds. -/
theorem insert_preserves_I2 :
    (∀ (s : interval_map K V) (b e : K) (v : V),
      I1 s.map_ → I2 s.map_ → I3 s.begin_value_ s.map_ →
      ∃ s', insert s b e v = some s' ∧ I2 s'.map_) ∧
    (∀ (d : V) (calls : List (K × K × V)),
      ∃ s, inserts (new d) calls = some s ∧ I2 s.map_) := by
  constructor
  · intro s b e v h1 h2 h3
    obtain ⟨s', h, hi, _⟩ := insert_inv s ⟨h1, (canon_iff _ _).2 ⟨h2, h3⟩⟩ b e v
    exact ⟨s', h, ((canon_iff _ _).1 hi.2).1⟩
  · intro d calls
    obtain ⟨s', h, hi⟩ := inserts_inv calls (new d) (new_inv d)
    exact ⟨s', h, ((canon_iff _ _).1 hi.2).1⟩

theorem insert_preserves_I2_witness :
    ∃ s', insert (⟨0, [(1, 4), (3, 5), (8, 0)]⟩ : interval_map Int Nat) 2 5 4 = some s' ∧
      I2 s'.map_ :=
  insert_preserves_I2.1 ⟨0, [(1, 4), (3, 5), (8, 0)]⟩ 2 5 4 (by decide) (by decide) (by decide)

/-- C5, invariant I3 is preserved: when the records satisfy I1, I2 and I3, `insert`
returns and afterwards the record list is empty or its first record does not hold the
default value; hence after any sequence of `insert` calls on a new map I3 holds. -/
theorem insert_preserves_I3 :
    (∀ (s : interval_map K V) (b e : K) (v : V),
      I1 s.map_ → I2 s.map_ → I3 s.begin_value_ s.map_ →
      ∃ s', insert s b e v = some s' ∧ s'.begin_value_ = s.begin_value_ ∧
        (s'.map_ = [] ∨ ∃ p rest, s'.map_ = p :: rest ∧ p.2 ≠ s.begin_value_)) ∧
    (∀ (d : V) (calls : List (K × K × V)),
      ∃ s, inserts (new d) calls = some s ∧ I3 s.begin_value_ s.map_) := by
  constructor
  · intro s b e v h1 h2 h3
    obtain ⟨s', h, hi, hd⟩ := insert_inv s ⟨h1, (canon_iff _ _).2 ⟨h2, h3⟩⟩ b e v
    refine ⟨s', h, hd, ?_⟩
    have hc := hi.2
    rw [hd] at hc
    cases hm : s'.map_ with
    | nil => exact Or.inl rfl
    | cons p rest =>
      rw [hm] at hc
      exact Or.inr ⟨p, rest, rfl, hc.1⟩
  · intro d calls
    obtain ⟨s', h, hi⟩ := inserts_inv calls (new d) (new_inv d)
    exact ⟨s', h, ((canon_iff _ _).1 hi.2).2⟩

theorem insert_preserves_I3_witness :
    ∃ s', insert (⟨0, [(1, 4), (3, 5), (8, 0)]⟩ : interval_map Int Nat) 0 3 0 = some s' ∧
      s'.begin_value_ = (⟨0, [(1, 4), (3, 5), (8, 0)]⟩ : interval_map Int Nat).begin_value_ ∧
      (s'.map_ = [] ∨ ∃ p rest, s'.map_ = p :: rest ∧
        p.2 ≠ (⟨0, [(1, 4), (3, 5), (8, 0)]⟩ : interval_map Int Nat).begin_value_) :=
  insert_preserves_I3.1 ⟨0, [(1, 4), (3, 5), (8, 0)]⟩ 0 3 0 (by decide) (by decide) (by decide)

/-- C6, invariant I1 is preserved: every sequence of `insert` calls on a new map
returns, and afterwards the keys of the records given by `traverse` ascend strictly; in
particular no key appears twice. -/
theorem inserts_I1 (d : V) (calls : List (K × K × V)) :
    ∃ s, inserts (new d) calls = some s ∧ I1 (traverse s) ∧
      ((traverse s).map Prod.fst).Nodup := by
  obtain ⟨s', h, hi⟩ := inserts_inv calls (new d) (new_inv d)
  refine ⟨s', h, hi.1, ?_⟩
  have h1 : I1 s'.map_ := hi.1
  unfold I1 at h1
  unfold traverse
  rw [List.Nodup, List.pairwise_map]
  exact h1.imp (fun hlt => ne_of_lt hlt)

/-- C7, lookup reference definition: on every map whose keys ascend strictly, `at(k)`
returns a value (it never fails); that value is the default value when the record list
is empty or every key is above `k`, and it is the value of the record with the greatest
key that is at most `k` when there is such a record. -/
theorem at_reference (s : interval_map K V) (hs : I1 s.map_) (k : K) :
    ∃ x, at_ s k = some x ∧
      (s.map_ = [] → x = s.begin_value_) ∧
      ((∀ p ∈ s.map_, k < p.1) → x = s.begin_value_) ∧
      (∀ p ∈ s.map_, p.1 ≤ k → (∀ q ∈ s.map_, q.1 ≤ k → q.1 ≤ p.1) → x = p.2) := by
  refine ⟨_, at_eq s.begin_value_ hs k, ?_, ?_, ?_⟩
  · intro h
    simp [h, upto, lastVal]
  · intro h
    rw [upto_of_lt _ k h]
    rfl
  · intro p hp hpk hmax
    exact lastVal_eq_of_greatest _ (I1_upto hs k) (mem_upto.2 ⟨hp, hpk⟩)
      (fun q hq => hmax q (mem_upto.1 hq).1 (mem_upto.1 hq).2)

theorem at_reference_witness :
    ∃ x, at_ (⟨0, [(1, 4), (3, 5), (8, 0)]⟩ : interval_map Int Nat) 7 = some x ∧
      ((⟨0, [(1, 4), (3, 5), (8, 0)]⟩ : interval_map Int Nat).map_ = [] → x = 0) ∧
      ((∀ p ∈ [((1 : Int), 4), (3, 5), (8, 0)], 7 < p.1) → x = 0) ∧
      (∀ p ∈ [((1 : Int), 4), (3, 5), (8, 0)], p.1 ≤ 7 →
        (∀ q ∈ [((1 : Int), 4), (3, 5), (8, 0)], q.1 ≤ 7 → q.1 ≤ p.1) → x = p.2) :=
  at_reference ⟨0, [(1, 4), (3, 5), (8, 0)]⟩ (by decide) 7

/-- C8, idempotence: in every state reachable from a new map by `insert` calls, for all
`key_begin`, `key_end`, `val`, both of two successive calls
`insert(key_begin, key_end, val)` return, and the second leaves the records (and the
default value) exactly as the first left them. -/
theorem insert_idempotent (s : interval_map K V) (hr : Reachable s) (b e : K) (v : V) :
    ∃ s1 s2, insert s b e v = some s1 ∧ insert s1 b e v = some s2 ∧
      traverse s2 = traverse s1 ∧ s2 = s1 := by
  have hi := reachable_inv hr
  rcases insert_cases s hi.1 b e v with ⟨_, h⟩ | ⟨hbe, h⟩
  · exact ⟨s, s, h, h, rfl, rfl⟩
  · exact ⟨_, _, h, insert_insertResult s hi.1 b e v hbe, rfl, rfl⟩

theorem insert_idempotent_witness :
    ∃ s1 s2, insert (⟨0, [(1, 4), (3, 5), (8, 0)]⟩ : interval_map Int Nat) 2 5 4 = some s1 ∧
      insert s1 2 5 4 = some s2 ∧ traverse s2 = traverse s1 ∧ s2 = s1 :=
  insert_idempotent ⟨0, [(1, 4), (3, 5), (8, 0)]⟩ ⟨0, [(1, 8, 4), (3, 8, 5)], by decide⟩ 2 5 4

/-- C9, merging on the right: in every state of the map (keys ascending), for
`key_begin < key_end`, when `at(key_end)` before the call equals `val`, the call
`insert(key_begin, key_end, val)` returns and afterwards `traverse` has no record with
key `key_end`. -/
theorem insert_merges_right (s : interval_map K V) (hs : I1 s.map_) (b e : K) (v : V)
    (hbe : b < e) (hat : at_ s e = some v) :
    ∃ s', insert s b e v = some s' ∧ ∀ p ∈ traverse s', p.1 ≠ e := by
  refine ⟨_, insert_eq s.begin_value_ hs b e hbe v, ?_⟩
  have hc : lastVal s.begin_value_ (upto s.map_ e) = v := by
    have := at_eq s.begin_value_ hs e
    rw [show (⟨s.begin_value_, s.map_⟩ : interval_map K V) = s from rfl, hat] at this
    exact (Option.some.inj this).symm
  intro p hp
  simp only [traverse, insertResult, hc, if_true, List.nil_append, List.mem_append] at hp
  rcases hp with h | h | h
  · exact ne_of_lt (lt_trans (mem_below.1 ((trimLeft_sublist _ _).subset h)).2 hbe)
  · rw [mem_ite_singleton h]
    exact ne_of_lt hbe
  · exact ne_of_gt (mem_above.1 h).2

theorem insert_merges_right_witness :
    ∃ s', insert (⟨0, [(1, 4), (3, 5), (8, 0)]⟩ : interval_map Int Nat) 2 5 5 = some s' ∧
      ∀ p ∈ traverse s', p.1 ≠ 5 :=
  insert_merges_right ⟨0, [(1, 4), (3, 5), (8, 0)]⟩ (by decide) 2 5 5 (by decide) (by decide)

/-- C10, merging on the left: in every state of the map with ascending keys (so in
every state satisfying I1, I2 and I3), for `key_begin < key_end`, when the record with
the greatest key strictly below `key_begin` holds `val`, or no record has a key below
`key_begin` and `val` is the default value, the call `insert(key_begin, key_end, val)`
returns and afterwards `traverse` has no record with key `key_begin`. -/
theorem insert_merges_left (s : interval_map K V) (hs : I1 s.map_) (b e : K) (v : V)
    (hbe : b < e)
    (hleft : (∃ p ∈ s.map_, p.1 < b ∧ (∀ q ∈ s.map_, q.1 < b → q.1 ≤ p.1) ∧ p.2 = v) ∨
      ((∀ q ∈ s.map_, ¬ q.1 < b) ∧ v = s.begin_value_)) :
    ∃ s', insert s b e v = some s' ∧ ∀ p ∈ traverse s', p.1 ≠ b := by
  refine ⟨_, insert_eq s.begin_value_ hs b e hbe v, ?_⟩
  have hv : v = lastVal s.begin_value_ (below s.map_ b) := by
    rcases hleft with ⟨p, hp, hpb, hmax, hpv⟩ | ⟨hnone, hvd⟩
    · rw [lastVal_eq_of_greatest _ (I1_below hs b) (mem_below.2 ⟨hp, hpb⟩)
        (fun q hq => hmax q (mem_below.1 hq).1 (mem_below.1 hq).2), hpv]
    · rw [below_of_not_lt _ b hnone, hvd]
      rfl
  intro p hp
  simp only [traverse, insertResult, ← hv, if_true, List.nil_append, List.mem_append] at hp
  rcases hp with h | h | h
  · exact ne_of_lt (mem_below.1 ((trimLeft_sublist _ _).subset h)).2
  · rw [mem_ite_singleton h]
    exact ne_of_gt hbe
  · exact ne_of_gt (lt_trans hbe (mem_above.1 h).2)

theorem insert_merges_left_witness :
    ∃ s', insert (⟨0, [(1, 4), (3, 5), (8, 0)]⟩ : interval_map Int Nat) 2 5 4 = some s' ∧
      ∀ p ∈ traverse s', p.1 ≠ 2 :=
  insert_merges_left ⟨0, [(1, 4), (3, 5), (8, 0)]⟩ (by decide) 2 5 4 (by decide)
    (Or.inl ⟨(1, 4), by decide, by decide, by decide, rfl⟩)

/-! ## Further lemmas: the loop bound, the right tail, the meaning of a map -/

/-- The closed form of `insert` is reached with any loop fuel of at least two. -/
theorem insert_bounded_eq (n : Nat) (d : V) {m : Records K V} (hs : I1 m) (b e : K)
    (hbe : b < e) (v : V) :
    insert_bounded (n + 2) ⟨d, m⟩ b e v
      = some ⟨d, insertResult d (below m b) (above m e) b e v (lastVal d (upto m e))⟩ := by
  have hL : ∀ p ∈ below m b, p.1 < b := fun p hp => (mem_below.1 hp).2
  have hR : ∀ p ∈ above m e, e < p.1 := fun p hp => (mem_above.1 hp).2
  have hM : ∀ p ∈ above (below m e) b, b < p.1 ∧ p.1 < e :=
    fun p hp => ⟨(mem_above.1 hp).2, (mem_below.1 (mem_above.1 hp).1).2⟩
  have sM : I1 (above (below m e) b) := I1_above (I1_below hs e) b
  generalize hc : lastVal d (upto m e) = c
  have h1 : insert_end_record d m e = some (below m e ++ (e, c) :: above m e, some e) := by
    rw [insert_end_record_eq d hs e, hc]
  have h2 : map_insert_or_assign (below m e ++ (e, c) :: above m e) b v
      = (below m b ++ (b, v) :: (above (below m e) b ++ (e, c) :: above m e), some b) := by
    have e2 : below (above m e) b = [] :=
      below_of_not_lt _ _ (fun p hp => not_lt_of_gt (lt_trans hbe (hR p hp)))
    have e3 : above (above m e) b = above m e :=
      above_of_lt _ _ (fun p hp => lt_trans hbe (hR p hp))
    have e4 : below [(e, c)] b = [] := by simp [below, not_lt_of_gt hbe]
    have e5 : above [(e, c)] b = [(e, c)] := by simp [above, hbe]
    have e1 : below m e ++ (e, c) :: above m e = below m e ++ ([(e, c)] ++ above m e) := by
      simp
    simp only [map_insert_or_assign]
    rw [e1, below_append, below_append, above_append, above_append, e2, e3, e4, e5,
      below_below m hbe]
    simp
  have h3 := erase_between (below m b) (above (below m e) b) (above m e) b e v c hbe hL hM hR sM
  have h5 := canonicalize_eq d (below m b) (above m e) b e v c hbe hL hR (I1_below hs b) n
  unfold insert_bounded
  simp only [ge_iff_le, not_le.2 hbe, if_false, h1, Option.some_bind, h2]
  cases hn : std_next (below m b ++ (b, v) :: (above (below m e) b ++ (e, c) :: above m e))
      (some b) with
  | none => simp [hn] at h3
  | some first =>
    simp only [hn, Option.some_bind] at h3 ⊢
    simp only [h3, Option.some_bind]
    exact h5

/-- The value of the last record is not changed by `insert`. -/
theorem lastVal_insertResult (d : V) {m : Records K V} (hs : I1 m) (b e : K) (v : V) :
    lastVal d (insertResult d (below m b) (above m e) b e v (lastVal d (upto m e)))
      = lastVal d m := by
  have h1 : lastVal d m = lastVal (lastVal d (upto m e)) (above m e) := by
    conv_lhs => rw [sorted_split_upto hs e]
    rw [lastVal_append]
  rw [h1]
  unfold insertResult
  rw [← List.append_assoc, ← List.append_assoc, lastVal_append, List.append_assoc,
    lastVal_mid_part]

/-- Along `insert` calls the invariant holds, the default value stays, and so does the
value of the last record. -/
theorem inserts_tail (calls : List (K × K × V)) (s : interval_map K V) (hs : Inv s) :
    ∃ s', inserts s calls = some s' ∧ Inv s' ∧ s'.begin_value_ = s.begin_value_ ∧
      lastVal s'.begin_value_ s'.map_ = lastVal s.begin_value_ s.map_ := by
  induction calls generalizing s with
  | nil => exact ⟨s, rfl, hs, rfl, rfl⟩
  | cons c calls ih =>
    obtain ⟨b, e, v⟩ := c
    have hstep : ∃ s1, insert s b e v = some s1 ∧ Inv s1 ∧
        s1.begin_value_ = s.begin_value_ ∧
        lastVal s1.begin_value_ s1.map_ = lastVal s.begin_value_ s.map_ := by
      obtain ⟨s1, h1, hi1, hd1⟩ := insert_inv s hs b e v
      refine ⟨s1, h1, hi1, hd1, ?_⟩
      rcases insert_cases s hs.1 b e v with ⟨_, h⟩ | ⟨_, h⟩
      · rw [h] at h1
        cases h1
        rfl
      · rw [h] at h1
        cases h1
        exact lastVal_insertResult _ hs.1 b e v
    obtain ⟨s1, h1, hi1, hd1, hl1⟩ := hstep
    obtain ⟨s2, h2, hi2, hd2, hl2⟩ := ih s1 hi1
    exact ⟨s2, by simp [inserts, h1, h2], hi2, hd2.trans hd1, by rw [hl2, hl1]⟩

/-- In a reachable state the last record, if any, holds the default value. -/
theorem reachable_lastVal {s : interval_map K V} (h : Reachable s) :
    lastVal s.begin_value_ s.map_ = s.begin_value_ := by
  obtain ⟨d, calls, hc⟩ := h
  obtain ⟨s', h1, _, hd, hl⟩ := inserts_tail calls (new d) (new_inv d)
  rw [hc] at h1
  cases h1
  rw [hl, hd]
  rfl

/-- What a map means after `insert`: the value at `k` is `v` inside the interval and the
old value outside. -/
theorem insert_sem (s : interval_map K V) (hs : Inv s) (b e : K) (v : V) :
    ∃ s', insert s b e v = some s' ∧ Inv s' ∧ s'.begin_value_ = s.begin_value_ ∧
      ∀ k, lastVal s.begin_value_ (upto s'.map_ k)
        = if b ≤ k ∧ k < e then v else lastVal s.begin_value_ (upto s.map_ k) := by
  obtain ⟨s', h, hi, hd⟩ := insert_inv s hs b e v
  refine ⟨s', h, hi, hd, ?_⟩
  intro k
  rcases insert_cases s hs.1 b e v with ⟨heb, h'⟩ | ⟨hbe, h'⟩
  · rw [h'] at h
    cases h
    have : ¬ (b ≤ k ∧ k < e) := fun hk => absurd (lt_of_le_of_lt hk.1 hk.2) (not_lt.2 heb)
    rw [if_neg this]
  · rw [h'] at h
    cases h
    have hL : ∀ p ∈ below s.map_ b, p.1 < b := fun p hp => (mem_below.1 hp).2
    have hR : ∀ p ∈ above s.map_ e, e < p.1 := fun p hp => (mem_above.1 hp).2
    show lastVal s.begin_value_ (upto (insertResult _ _ _ b e v _) k) = _
    by_cases hkb : k < b
    · rw [if_neg (fun hk => absurd hkb (not_lt.2 hk.1)),
        upto_insertResult_left _ _ _ b e v _ hbe hR k hkb,
        trimLeft_of_canon _ _ (canon_below hs.1 hs.2 b), upto_below _ hkb]
    · by_cases hke : k < e
      · rw [if_pos ⟨not_lt.1 hkb, hke⟩,
          upto_insertResult_inside _ _ _ b e v _ hL hR k (not_lt.1 hkb) hke, lastVal_left_part]
      · rw [if_neg (fun hk => hke hk.2),
          upto_insertResult_right _ _ _ b e v _ hbe hL k (not_lt.1 hke), lastVal_append,
          lastVal_mid_part, upto_of_sorted_le hs.1 (not_lt.1 hke), lastVal_append]

theorem upto_cons_of_le (p : K × V) (r : Records K V) (k : K) (h : p.1 ≤ k) :
    upto (p :: r) k = p :: upto r k := by
  simp [upto, List.filter_cons, h]

theorem upto_cons_of_lt (p : K × V) (r : Records K V) (k : K) (h : k < p.1)
    (hs : I1 (p :: r)) : upto (p :: r) k = [] := by
  apply upto_of_lt
  intro q hq
  rcases List.mem_cons.1 hq with rfl | hq
  · exact h
  · exact lt_trans h ((I1_cons.1 hs).1 q hq)

theorem lastVal_upto_head (d : V) (p : K × V) (r : Records K V) (hs : I1 (p :: r)) :
    lastVal d (upto (p :: r) p.1) = p.2 := by
  rw [upto_cons_of_le p r p.1 (le_refl _), upto_of_lt r p.1 (I1_cons.1 hs).1]
  rfl

/-- Two canonical maps with the same default value and the same meaning are equal. -/
theorem canon_unique (d : V) (m1 m2 : Records K V) (s1 : I1 m1) (s2 : I1 m2)
    (c1 : Canon d m1) (c2 : Canon d m2)
    (h : ∀ k, lastVal d (upto m1 k) = lastVal d (upto m2 k)) : m1 = m2 := by
  induction m1 generalizing m2 d with
  | nil =>
    cases m2 with
    | nil => rfl
    | cons q r2 =>
      have := h q.1
      rw [lastVal_upto_head d q r2 s2] at this
      exact absurd this.symm c2.1
  | cons p r1 ih =>
    cases m2 with
    | nil =>
      have := h p.1
      rw [lastVal_upto_head d p r1 s1] at this
      exact absurd this c1.1
    | cons q r2 =>
      have hk : p.1 = q.1 := by
        rcases lt_trichotomy p.1 q.1 with hlt | heq | hgt
        · have := h p.1
          rw [lastVal_upto_head d p r1 s1, upto_cons_of_lt q r2 p.1 hlt s2] at this
          exact absurd this c1.1
        · exact heq
        · have := h q.1
          rw [lastVal_upto_head d q r2 s2, upto_cons_of_lt p r1 q.1 hgt s1] at this
          exact absurd this.symm c2.1
      have hv : p.2 = q.2 := by
        have := h p.1
        rw [lastVal_upto_head d p r1 s1] at this
        rw [hk, lastVal_upto_head d q r2 s2] at this
        exact this
      have hpq : p = q := Prod.ext hk hv
      subst hpq
      have hr : r1 = r2 := by
        apply ih p.2 r2 (I1_cons.1 s1).2 (I1_cons.1 s2).2 c1.2 c2.2
        intro k
        by_cases hpk : p.1 ≤ k
        · have := h k
          rw [upto_cons_of_le p r1 k hpk, upto_cons_of_le p r2 k hpk] at this
          exact this
        · have hlt : k < p.1 := not_le.1 hpk
          rw [upto_of_lt r1 k (fun x hx => lt_trans hlt ((I1_cons.1 s1).1 x hx)),
            upto_of_lt r2 k (fun x hx => lt_trans hlt ((I1_cons.1 s2).1 x hx))]
      rw [hr]

/-- Two states that satisfy the invariant, share the default value and mean the same
function hold the same records. -/
theorem inv_unique (s1 s2 : interval_map K V) (h1 : Inv s1) (h2 : Inv s2)
    (hd : s1.begin_value_ = s2.begin_value_)
    (h : ∀ k, lastVal s1.begin_value_ (upto s1.map_ k)
      = lastVal s1.begin_value_ (upto s2.map_ k)) : s1.map_ = s2.map_ := by
  have c2 := h2.2
  rw [← hd] at c2
  exact canon_unique s1.begin_value_ s1.map_ s2.map_ h1.1 h2.1 h1.2 c2 h

theorem inv_of_invariants (s : interval_map K V)
    (h : Reachable s ∨ (I1 s.map_ ∧ I2 s.map_ ∧ I3 s.begin_value_ s.map_)) : Inv s := by
  rcases h with h | ⟨h1, h2, h3⟩
  · exact reachable_inv h
  · exact ⟨h1, (canon_iff _ _).2 ⟨h2, h3⟩⟩

theorem lastVal_of_getLast (d : V) (A : Records K V) (p : K × V)
    (h : A.getLast? = some p) : lastVal d A = p.2 := by
  rcases List.eq_nil_or_concat A with rfl | ⟨A0, a, rfl⟩
  · simp at h
  · rw [List.concat_eq_append] at *
    simp at h
    subst h
    simp [lastVal_append, lastVal]

/-! ## The contract of `interval_map`, continued -/

/-- C11, collapse to default: in every state reachable from a new map by `insert`
calls, for `key_begin < key_end` with `key_begin` at or below every boundary key and
`key_end` at or above every boundary key, `insert(key_begin, key_end, default_value)`
returns and leaves `traverse` empty; in particular so on a new (empty) map. -/
theorem insert_default_collapses (s : interval_map K V) (hr : Reachable s) (b e : K)
    (hbe : b < e) (hb : ∀ p ∈ s.map_, b ≤ p.1) (he : ∀ p ∈ s.map_, p.1 ≤ e) :
    (∃ s', insert s b e s.begin_value_ = some s' ∧ traverse s' = []) ∧
    (∃ s', insert (new s.begin_value_ : interval_map K V) b e s.begin_value_ = some s' ∧
      traverse s' = []) := by
  constructor
  · refine ⟨_, insert_eq s.begin_value_ (reachable_inv hr).1 b e hbe _, ?_⟩
    have h1 : below s.map_ b = [] := below_of_not_lt _ b (fun p hp => not_lt.2 (hb p hp))
    have h2 : above s.map_ e = [] := above_of_not_lt _ e (fun p hp => not_lt.2 (he p hp))
    have h3 : upto s.map_ e = s.map_ := upto_of_le _ e he
    simp [traverse, h1, h2, h3, reachable_lastVal hr, insertResult, trimLeft, lastVal]
  · have hnil : I1 ([] : Records K V) := (new_inv s.begin_value_).1
    refine ⟨_, insert_eq s.begin_value_ hnil b e hbe _, ?_⟩
    simp [traverse, below, above, upto, insertResult, trimLeft, lastVal]

theorem insert_default_collapses_witness :
    (∃ s', insert (⟨0, [(1, 4), (3, 5), (8, 0)]⟩ : interval_map Int Nat) 1 8 0 = some s' ∧
      traverse s' = []) ∧
    (∃ s', insert (new 0 : interval_map Int Nat) 1 8 0 = some s' ∧ traverse s' = []) :=
  insert_default_collapses ⟨0, [(1, 4), (3, 5), (8, 0)]⟩ ⟨0, [(1, 8, 4), (3, 8, 5)], by decide⟩
    1 8 (by decide) (by decide) (by decide)

/-- C12, the canonical form is unique: two map states with the same default value, each
reachable from a new map by `insert` calls or satisfying I1, I2 and I3, whose `at(k)`
agree for every key `k`, have identical `traverse` sequences. -/
theorem canonical_form_unique (s1 s2 : interval_map K V)
    (hd : s1.begin_value_ = s2.begin_value_)
    (h1 : Reachable s1 ∨ (I1 s1.map_ ∧ I2 s1.map_ ∧ I3 s1.begin_value_ s1.map_))
    (h2 : Reachable s2 ∨ (I1 s2.map_ ∧ I2 s2.map_ ∧ I3 s2.begin_value_ s2.map_))
    (hat : ∀ k, at_ s1 k = at_ s2 k) : traverse s1 = traverse s2 := by
  have i1 := inv_of_invariants s1 h1
  have i2 := inv_of_invariants s2 h2
  apply inv_unique s1 s2 i1 i2 hd
  intro k
  have h := hat k
  rw [show s1 = ⟨s1.begin_value_, s1.map_⟩ from rfl, at_eq _ i1.1,
    show s2 = ⟨s2.begin_value_, s2.map_⟩ from rfl, at_eq _ i2.1] at h
  have h' := Option.some.inj h
  simp only at h'
  rw [h', hd]

theorem canonical_form_unique_witness :
    traverse (⟨0, [(1, 4), (3, 5), (8, 0)]⟩ : interval_map Int Nat)
      = traverse (⟨0, [(1, 4), (3, 5), (8, 0)]⟩ : interval_map Int Nat) :=
  canonical_form_unique ⟨0, [(1, 4), (3, 5), (8, 0)]⟩ ⟨0, [(1, 4), (3, 5), (8, 0)]⟩ rfl
    (Or.inl ⟨0, [(1, 8, 4), (3, 8, 5)], by decide⟩)
    (Or.inr ⟨by decide, by decide, by decide⟩) (fun _ => rfl)

/-- C13, a later covering insert absorbs an earlier one: in every state reachable from
a new map by `insert` calls, for `b2 ≤ b1` and `e1 ≤ e2`, the calls `insert(b1, e1, v1)`
and then `insert(b2, e2, v2)` return and yield the same records as `insert(b2, e2, v2)`
alone.  This holds for `b2 < e2` as the claim has it, and also for `b2 ≥ e2`, where none
of the three calls changes anything. -/
theorem insert_absorbs (s : interval_map K V) (hr : Reachable s) (b1 e1 b2 e2 : K)
    (v1 v2 : V) (hb : b2 ≤ b1) (he : e1 ≤ e2) :
    ∃ sA sA' sB, insert s b1 e1 v1 = some sA ∧ insert sA b2 e2 v2 = some sA' ∧
      insert s b2 e2 v2 = some sB ∧ traverse sA' = traverse sB := by
  have hi := reachable_inv hr
  obtain ⟨sA, hA, iA, dA, mA⟩ := insert_sem s hi b1 e1 v1
  obtain ⟨sA', hA', iA', dA', mA'⟩ := insert_sem sA iA b2 e2 v2
  obtain ⟨sB, hB, iB, dB, mB⟩ := insert_sem s hi b2 e2 v2
  refine ⟨sA, sA', sB, hA, hA', hB, ?_⟩
  apply inv_unique sA' sB iA' iB (by rw [dA', dA, dB])
  intro k
  rw [dA', dA, mB]
  rw [dA] at mA'
  rw [mA', mA]
  by_cases hk : b2 ≤ k ∧ k < e2
  · rw [if_pos hk, if_pos hk]
  · rw [if_neg hk, if_neg hk]
    have : ¬ (b1 ≤ k ∧ k < e1) :=
      fun h => hk ⟨le_trans hb h.1, lt_of_lt_of_le h.2 he⟩
    rw [if_neg this]

theorem insert_absorbs_witness :
    ∃ sA sA' sB, insert (⟨0, [(1, 4), (3, 5), (8, 0)]⟩ : interval_map Int Nat) 3 6 9 = some sA ∧
      insert sA 2 7 5 = some sA' ∧
      insert (⟨0, [(1, 4), (3, 5), (8, 0)]⟩ : interval_map Int Nat) 2 7 5 = some sB ∧
      traverse sA' = traverse sB :=
  insert_absorbs ⟨0, [(1, 4), (3, 5), (8, 0)]⟩ ⟨0, [(1, 8, 4), (3, 8, 5)], by decide⟩
    3 6 2 7 9 5 (by decide) (by decide)

/-- C14 as stated fails: after the six `insert` calls of `main` (lines 99-114), the call
`insert(0, 18, 'z')` of line 124 does not leave the records `[(10,'f'),(18,'a')]` that the
comment of line 125 gives. -/
theorem main_line_125_comment_fails :
    (inserts (new 'a' : interval_map Int Char)
      [(3, 5, 'b'), (2, 3, 'c'), (2, 3, 'd'), (2, 4, 'e'), (4, 18, 'f'), (2, 8, 'g'),
        (0, 18, 'z')]).map traverse ≠ some [(10, 'f'), (18, 'a')] := by
  decide

/-- C14, amended: after the six `insert` calls of `main` (lines 99-114), the call
`insert(0, 18, 'z')` of line 124 leaves the records `[(0,'z'),(18,'a')]`: the whole of
`[0, 18)` holds `'z'` and the default `'a'` resumes at 18. -/
theorem main_line_125_prints :
    (inserts (new 'a' : interval_map Int Char)
      [(3, 5, 'b'), (2, 3, 'c'), (2, 3, 'd'), (2, 4, 'e'), (4, 18, 'f'), (2, 8, 'g'),
        (0, 18, 'z')]).map traverse = some [(0, 'z'), (18, 'a')] := by
  decide

/-- C15, superseded boundaries are removed: in every state of the map (keys ascending),
for `key_begin < key_end` the call `insert(key_begin, key_end, val)` returns and
afterwards `traverse` has no record whose key lies strictly between `key_begin` and
`key_end`. -/
theorem insert_removes_inner (s : interval_map K V) (hs : I1 s.map_) (b e : K) (v : V)
    (hbe : b < e) :
    ∃ s', insert s b e v = some s' ∧ ∀ p ∈ traverse s', ¬ (b < p.1 ∧ p.1 < e) := by
  refine ⟨_, insert_eq s.begin_value_ hs b e hbe v, ?_⟩
  intro p hp hin
  simp only [traverse, insertResult, List.mem_append] at hp
  rcases hp with h | h | h | h
  · exact absurd hin.1 (not_lt_of_gt (mem_below.1 ((trimLeft_sublist _ _).subset h)).2)
  · rw [mem_ite_singleton h] at hin
    exact lt_irrefl b hin.1
  · rw [mem_ite_singleton h] at hin
    exact lt_irrefl e hin.2
  · exact absurd hin.2 (not_lt_of_gt (mem_above.1 h).2)

theorem insert_removes_inner_witness :
    ∃ s', insert (⟨0, [(1, 4), (3, 5), (8, 0)]⟩ : interval_map Int Nat) 0 9 7 = some s' ∧
      ∀ p ∈ traverse s', ¬ (0 < p.1 ∧ p.1 < 9) :=
  insert_removes_inner ⟨0, [(1, 4), (3, 5), (8, 0)]⟩ (by decide) 0 9 7 (by decide)

/-- C16, the loop of `insert` runs at most two iterations: in every state of the map
(keys ascending) and for `key_begin < key_end`, `insert` with its loop cut off after two
iterations returns, so the walk from the end record reaches `left_it` within two steps;
any larger bound, and the unbounded `insert`, return the same state, whatever the number
of records and the length of the interval. -/
theorem canon_loop_two_iterations (s : interval_map K V) (hs : I1 s.map_) (b e : K) (v : V)
    (hbe : b < e) (n : Nat) (hn : 2 ≤ n) :
    ∃ s', insert_bounded 2 s b e v = some s' ∧ insert_bounded n s b e v = some s' ∧
      insert s b e v = some s' := by
  obtain ⟨n', rfl⟩ : ∃ n', n = n' + 2 := ⟨n - 2, by omega⟩
  exact ⟨_, insert_bounded_eq 0 s.begin_value_ hs b e hbe v,
    insert_bounded_eq n' s.begin_value_ hs b e hbe v, insert_eq s.begin_value_ hs b e hbe v⟩

theorem canon_loop_two_iterations_witness :
    ∃ s', insert_bounded 2 (⟨0, [(1, 4), (3, 5), (4, 6), (5, 7), (8, 0)]⟩ :
        interval_map Int Nat) 2 9 4 = some s' ∧
      insert_bounded 5 (⟨0, [(1, 4), (3, 5), (4, 6), (5, 7), (8, 0)]⟩ :
        interval_map Int Nat) 2 9 4 = some s' ∧
      insert (⟨0, [(1, 4), (3, 5), (4, 6), (5, 7), (8, 0)]⟩ :
        interval_map Int Nat) 2 9 4 = some s' :=
  canon_loop_two_iterations ⟨0, [(1, 4), (3, 5), (4, 6), (5, 7), (8, 0)]⟩ (by decide) 2 9 4
    (by decide) 5 (by decide)

/-- C17, iterator safety: in every state of the map (keys ascending), for
`key_begin < key_end` the call `insert(key_begin, key_end, val)` returns, and so does
its first part (lines 23-41); `at(key)` returns for every key.  In the model any step
before `begin()`, any step from or read of `end()` or an erased node makes the result
`none`, so a returned result means that `--lower_bound`, `std::prev` in the loop and
every `->second`, that of `left_it` in the final test included, met a live node. -/
theorem insert_at_safe (s : interval_map K V) (hs : I1 s.map_) (b e : K) (v : V) (k : K)
    (hbe : b < e) :
    (∃ r, insert_end_record s.begin_value_ s.map_ e = some r) ∧
    (∃ s', insert s b e v = some s') ∧ (∃ x, at_ s k = some x) :=
  ⟨⟨_, insert_end_record_eq s.begin_value_ hs e⟩, ⟨_, insert_eq s.begin_value_ hs b e hbe v⟩,
    ⟨_, at_eq s.begin_value_ hs k⟩⟩

theorem insert_at_safe_witness :
    (∃ r, insert_end_record (0 : Nat) [((1 : Int), 4), (3, 5), (8, 0)] 9 = some r) ∧
    (∃ s', insert (⟨0, [(1, 4), (3, 5), (8, 0)]⟩ : interval_map Int Nat) 0 9 7 = some s') ∧
    (∃ x, at_ (⟨0, [(1, 4), (3, 5), (8, 0)]⟩ : interval_map Int Nat) 0 = some x) :=
  insert_at_safe ⟨0, [(1, 4), (3, 5), (8, 0)]⟩ (by decide) 0 9 7 0 (by decide)

/-- C18, the right tail stays default: in every state reachable from a new map by
`insert` calls the last record, if there is one, holds the default value; so the record
list never has length one, and `at(k)` returns the default value for every `k` at or
above the greatest boundary key. -/
theorem right_tail_default (s : interval_map K V) (hr : Reachable s) :
    (∀ p, s.map_.getLast? = some p → p.2 = s.begin_value_) ∧
    s.map_.length ≠ 1 ∧
    (∀ k, (∀ p ∈ s.map_, p.1 ≤ k) → at_ s k = some s.begin_value_) := by
  have hi := reachable_inv hr
  have hl := reachable_lastVal hr
  refine ⟨?_, ?_, ?_⟩
  · intro p hp
    rw [← lastVal_of_getLast s.begin_value_ s.map_ p hp, hl]
  · intro hlen
    obtain ⟨p, hp⟩ := List.length_eq_one.1 hlen
    have hc := hi.2
    rw [hp] at hc hl
    exact hc.1 hl
  · intro k hk
    rw [show s = ⟨s.begin_value_, s.map_⟩ from rfl, at_eq _ hi.1, upto_of_le _ k hk, hl]

theorem right_tail_default_witness :
    (∀ p, (⟨0, [(1, 4), (3, 5), (8, 0)]⟩ : interval_map Int Nat).map_.getLast? = some p →
      p.2 = 0) ∧
    (⟨0, [(1, 4), (3, 5), (8, 0)]⟩ : interval_map Int Nat).map_.length ≠ 1 ∧
    (∀ k, (∀ p ∈ (⟨0, [(1, 4), (3, 5), (8, 0)]⟩ : interval_map Int Nat).map_, p.1 ≤ k) →
      at_ (⟨0, [(1, 4), (3, 5), (8, 0)]⟩ : interval_map Int Nat) k = some 0) :=
  right_tail_default ⟨0, [(1, 4), (3, 5), (8, 0)]⟩ ⟨0, [(1, 8, 4), (3, 8, 5)], by decide⟩

/-- C19, structural frame: in every state satisfying I1, I2 and I3, for
`key_begin < key_end` the call `insert(key_begin, key_end, val)` returns, and the records
with a key below `key_begin` and those with a key above `key_end` are the same lists
before and after; only records with a key in `[key_begin, key_end]` are added,
overwritten or erased. -/
theorem insert_structural_frame (s : interval_map K V) (h1 : I1 s.map_) (h2 : I2 s.map_)
    (h3 : I3 s.begin_value_ s.map_) (b e : K) (v : V) (hbe : b < e) :
    ∃ s', insert s b e v = some s' ∧
      (traverse s').filter (fun p => decide (p.1 < b))
        = (traverse s).filter (fun p => decide (p.1 < b)) ∧
      (traverse s').filter (fun p => decide (e < p.1))
        = (traverse s).filter (fun p => decide (e < p.1)) := by
  have hc : Canon s.begin_value_ s.map_ := (canon_iff _ _).2 ⟨h2, h3⟩
  have hL : ∀ p ∈ below s.map_ b, p.1 < b := fun p hp => (mem_below.1 hp).2
  have hR : ∀ p ∈ above s.map_ e, e < p.1 := fun p hp => (mem_above.1 hp).2
  refine ⟨_, insert_eq s.begin_value_ h1 b e hbe v, ?_, ?_⟩
  · show below (insertResult _ _ _ b e v _) b = below s.map_ b
    rw [below_insertResult _ _ _ b e v _ hbe hL hR, trimLeft_of_canon _ _ (canon_below h1 hc b)]
  · show above (insertResult _ _ _ b e v _) e = above s.map_ e
    rw [above_insertResult _ _ _ b e v _ hbe hL hR]

theorem insert_structural_frame_witness :
    ∃ s', insert (⟨0, [(1, 4), (3, 5), (8, 0)]⟩ : interval_map Int Nat) 2 5 4 = some s' ∧
      (traverse s').filter (fun p => decide (p.1 < 2))
        = (traverse (⟨0, [(1, 4), (3, 5), (8, 0)]⟩ : interval_map Int Nat)).filter
          (fun p => decide (p.1 < 2)) ∧
      (traverse s').filter (fun p => decide (5 < p.1))
        = (traverse (⟨0, [(1, 4), (3, 5), (8, 0)]⟩ : interval_map Int Nat)).filter
          (fun p => decide (5 < p.1)) :=
  insert_structural_frame ⟨0, [(1, 4), (3, 5), (8, 0)]⟩ (by decide) (by decide) (by decide)
    2 5 4 (by decide)

/-- C20, disjoint inserts commute: in every state reachable from a new map by `insert`
calls, for `e1 ≤ b2`, the calls `insert(b1, e1, v1)` then `insert(b2, e2, v2)` return and
yield the same records as `insert(b2, e2, v2)` then `insert(b1, e1, v1)`.  This holds for
`b1 < e1 ≤ b2 < e2` as the claim has it, and also when one of the two intervals is
empty. -/
theorem disjoint_inserts_commute (s : interval_map K V) (hr : Reachable s) (b1 e1 b2 e2 : K)
    (v1 v2 : V) (h12 : e1 ≤ b2) :
    ∃ sA sA' sB sB', insert s b1 e1 v1 = some sA ∧ insert sA b2 e2 v2 = some sA' ∧
      insert s b2 e2 v2 = some sB ∧ insert sB b1 e1 v1 = some sB' ∧
      traverse sA' = traverse sB' := by
  have hi := reachable_inv hr
  obtain ⟨sA, hA, iA, dA, mA⟩ := insert_sem s hi b1 e1 v1
  obtain ⟨sA', hA', iA', dA', mA'⟩ := insert_sem sA iA b2 e2 v2
  obtain ⟨sB, hB, iB, dB, mB⟩ := insert_sem s hi b2 e2 v2
  obtain ⟨sB', hB', iB', dB', mB'⟩ := insert_sem sB iB b1 e1 v1
  refine ⟨sA, sA', sB, sB', hA, hA', hB, hB', ?_⟩
  apply inv_unique sA' sB' iA' iB' (by rw [dA', dA, dB', dB])
  intro k
  rw [dA] at mA'
  rw [dB] at mB'
  rw [dA', dA, mA', mA, mB', mB]
  by_cases hk1 : b1 ≤ k ∧ k < e1
  · have : ¬ (b2 ≤ k ∧ k < e2) :=
      fun h => absurd (lt_of_lt_of_le hk1.2 h12) (not_lt.2 h.1)
    rw [if_neg this, if_pos hk1, if_pos hk1]
  · rw [if_neg hk1, if_neg hk1]

theorem disjoint_inserts_commute_witness :
    ∃ sA sA' sB sB',
      insert (⟨0, [(1, 4), (3, 5), (8, 0)]⟩ : interval_map Int Nat) 0 2 5 = some sA ∧
      insert sA 2 4 4 = some sA' ∧
      insert (⟨0, [(1, 4), (3, 5), (8, 0)]⟩ : interval_map Int Nat) 2 4 4 = some sB ∧
      insert sB 0 2 5 = some sB' ∧ traverse sA' = traverse sB' :=
  disjoint_inserts_commute ⟨0, [(1, 4), (3, 5), (8, 0)]⟩
    ⟨0, [(1, 8, 4), (3, 8, 5)], by decide⟩ 0 2 2 4 5 4 (by decide)

end interval_map
